import Mathlib

/-!
# Kusion operation engine: change ledger, diff rendering, options, node execution

A shallow embedding of

* `pkg/engine/operation/change.go` (`ChangeStep`, `ChangeOrder`, `Values`, `Get`, `Diff`,
  `Diffs`),
* `pkg/kusionctl/cmd/compile/options.go` (`CompileOptions.Validate`),
* `pkg/kusionctl/cmd/preview/options.go` (`PreviewOptions.Validate`, `Preview`),
* the reference resolver and `ResourceNode.Execute`, modelled from the specification and
  exercised on the scenario of `pkg/engine/operation/resource_node_test.go`,

together with the properties established about them.

Conventions.  A Go pointer `*T` is an `Option T`, with `none` for `nil`.  A Go
`map[string]V` is an association list with pairwise distinct keys (`AList`);
indexing a map with an absent key yields the zero value of `V`.  A computation
that can abort with a runtime panic (a nil dereference) returns an `Option`,
with `none` for the panic.  A Go result pair `(T, error)` is a pair whose second
component is `none` for the nil error.
-/

namespace Kusion

/-! ## Data model -/

/-- Modelled from the spec: the declaration of `ActionType` is not part of the
sources at hand; section 3 of the specification gives it as the enum
`{Create, Update, Delete, UnChange, Undefined}`. -/
inductive ActionType where
  | Undefined
  | UnChange
  | Create
  | Update
  | Delete
deriving DecidableEq, Repr

/-- A Go `error` value, identified by its message. -/
structure GoError where
  msg : String
deriving DecidableEq, Repr

/-- The struct `ChangeStep`; `D` stands for the `interface{}` payloads. -/
structure ChangeStep (D : Type) where
  ID : String
  Action : ActionType
  Old : D
  New : D
deriving DecidableEq, Repr

/-- The pointer type `*ChangeStep`. -/
abbrev StepPtr (D : Type) := Option (ChangeStep D)

/-- The constructor `NewChangeStep`. -/
def NewChangeStep {D : Type} (id : String) (op : ActionType) (oldData newData : D) :
    StepPtr D :=
  some { ID := id, Action := op, Old := oldData, New := newData }

/-- The function type `ChangeStepFilterFunc`, `func(*ChangeStep) bool`, for filters
without state.  The result `none` records a call that does not return because it
panics.  Filters that keep or change state are the closures `FilterClosure` below. -/
abbrev ChangeStepFilterFunc (D : Type) := StepPtr D → Option Bool

/-- A filter that returns on every pointer, given by the predicate it computes. -/
def returning {D : Type} (p : StepPtr D → Bool) : ChangeStepFilterFunc D :=
  fun v => some (p v)

/-- The predefined filter `CreateChangeStepFilter`: reading `c.Action` through a nil
pointer panics. -/
def CreateChangeStepFilter {D : Type} : ChangeStepFilterFunc D
  | none => none
  | some c => some (decide (c.Action = ActionType.Create))

/-- The predefined filter `UpdateChangeStepFilter`. -/
def UpdateChangeStepFilter {D : Type} : ChangeStepFilterFunc D
  | none => none
  | some c => some (decide (c.Action = ActionType.Update))

/-- The predefined filter `DeleteChangeStepFilter`. -/
def DeleteChangeStepFilter {D : Type} : ChangeStepFilterFunc D
  | none => none
  | some c => some (decide (c.Action = ActionType.Delete))

/-- The predefined filter `UnChangeChangeStepFilter`. -/
def UnChangeChangeStepFilter {D : Type} : ChangeStepFilterFunc D
  | none => none
  | some c => some (decide (c.Action = ActionType.UnChange))

/-- The map type `map[string]*ChangeStep`. -/
abbrev StepMap (D : Type) := AList (fun _ : String => StepPtr D)

/-- The struct `ChangeOrder`. -/
structure ChangeOrder (D : Type) where
  StepKeys : List String
  ChangeSteps : StepMap D

/-- The index expression `m[key]` on a `map[string]*ChangeStep`: the stored pointer,
or nil when the key is absent. -/
def StepMap.index {D : Type} (m : StepMap D) (key : String) : StepPtr D :=
  match m.lookup key with
  | some v => v
  | none => none

/-- The method `ChangeOrder.Get`. -/
def ChangeOrder.Get {D : Type} (o : ChangeOrder D) (key : String) : StepPtr D :=
  StepMap.index o.ChangeSteps key

/-- The inner loop of `Values`: starting at index `i`, advance over the filters until
one returns false; the result is the index at which the loop stops. -/
def Values.scan {D : Type} (v : StepPtr D) :
    List (ChangeStepFilterFunc D) → Nat → Option Nat
  | [], i => some i
  | f :: rest, i =>
    match f v with
    | none => none
    | some false => some i
    | some true => Values.scan v rest (i + 1)

/-- The outer loop of `Values` over the remaining keys, `result` being the slice
built so far. -/
def Values.loop {D : Type} (o : ChangeOrder D) (filters : List (ChangeStepFilterFunc D)) :
    List String → List (StepPtr D) → Option (List (StepPtr D))
  | [], result => some result
  | key :: keys, result =>
    let v := StepMap.index o.ChangeSteps key
    match Values.scan v filters 0 with
    | none => none
    | some i =>
      if i < filters.length then Values.loop o filters keys result
      else Values.loop o filters keys (result ++ [v])

/-- The method `ChangeOrder.Values`, for filters without state. -/
def ChangeOrder.Values {D : Type} (o : ChangeOrder D)
    (filters : List (ChangeStepFilterFunc D)) : Option (List (StepPtr D)) :=
  Values.loop o filters o.StepKeys []

/-- A filter of Go in general, a closure of type `func(*ChangeStep) bool`: a call in the
state `s` does not return (`none`, a panic) or returns its boolean together with the state
it leaves.  The state of type `σ` is all that the filters of a call can read and write
besides the pointer passed: the variables they capture and the steps behind the pointers.
The pointer passed is identified by the step that `Values` finds behind it; a closure that
reads a step after another closure wrote through the pointer reads it from the state.  The
ledger itself, `StepKeys` and `ChangeSteps`, is not part of the state: a closure cannot
change it while `Values` runs. -/
abbrev FilterClosure (D σ : Type) := StepPtr D → σ → Option (Bool × σ)

/-- The inner loop of `Values` for filter closures: as `Values.scan`, with the state
passed from one call to the next. -/
def Values.scanSt {D σ : Type} (v : StepPtr D) :
    List (FilterClosure D σ) → Nat → σ → Option (Nat × σ)
  | [], i, s => some (i, s)
  | f :: rest, i, s =>
    match f v s with
    | none => none
    | some (false, s1) => some (i, s1)
    | some (true, s1) => Values.scanSt v rest (i + 1) s1

/-- The outer loop of `Values` for filter closures: as `Values.loop`, with the state
passed from one key to the next. -/
def Values.loopSt {D σ : Type} (o : ChangeOrder D) (filters : List (FilterClosure D σ)) :
    List String → List (StepPtr D) → σ → Option (List (StepPtr D) × σ)
  | [], result, s => some (result, s)
  | key :: keys, result, s =>
    let v := StepMap.index o.ChangeSteps key
    match Values.scanSt v filters 0 s with
    | none => none
    | some (i, s1) =>
      if i < filters.length then Values.loopSt o filters keys result s1
      else Values.loopSt o filters keys (result ++ [v]) s1

/-- The method `ChangeOrder.Values` for filter closures, called in the state `s`: the
slice returned and the state after the call, or `none` when a filter panics. -/
def ChangeOrder.ValuesSt {D σ : Type} (o : ChangeOrder D)
    (filters : List (FilterClosure D σ)) (s : σ) : Option (List (StepPtr D) × σ) :=
  Values.loopSt o filters o.StepKeys [] s

/-- The ledger invariant of the specification: the step keys are pairwise distinct
and, as a set, they are the key set of the map. -/
def LedgerInvariant {D : Type} (o : ChangeOrder D) : Prop :=
  o.StepKeys.Nodup ∧ o.StepKeys.toFinset = o.ChangeSteps.keys.toFinset

instance {D : Type} (o : ChangeOrder D) : Decidable (LedgerInvariant o) := by
  unfold LedgerInvariant; infer_instance

/-! ## Notions used in the statements -/

/-- The test whether a filter returns true on a pointer. -/
def accepts {D : Type} (f : ChangeStepFilterFunc D) (v : StepPtr D) : Bool :=
  match f v with
  | some true => true
  | _ => false

/-- The filters `fs` all return, that is, none of them panics, on every pointer looked up
from the step keys of `o`. -/
def returnsOn {D : Type} (o : ChangeOrder D) (fs : List (ChangeStepFilterFunc D)) : Prop :=
  ∀ f ∈ fs, ∀ k ∈ o.StepKeys, (f (o.Get k)).isSome

instance {D : Type} (o : ChangeOrder D) (fs : List (ChangeStepFilterFunc D)) :
    Decidable (returnsOn o fs) := by
  unfold returnsOn; infer_instance

/-- The outcomes of the filter closures `fs` do not depend on the state, as far as their
calls can change it from the state `s`: the states `I` include `s`, a call of one of the
closures in a state of `I` leaves a state of `I`, and in every state of `I` the outcome of
each closure on a pointer, the boolean it returns or its panic, is its outcome in `s`. -/
def StateFreeOn {D σ : Type} (I : σ → Prop) (s : σ) (fs : List (FilterClosure D σ)) : Prop :=
  I s
  ∧ (∀ f ∈ fs, ∀ v t b t1, I t → f v t = some (b, t1) → I t1)
  ∧ (∀ f ∈ fs, ∀ v t, I t → (f v t).map Prod.fst = (f v s).map Prod.fst)

/-- The outcome of a filter closure called in the state `s`, as a filter without state. -/
def outcome {D σ : Type} (s : σ) (f : FilterClosure D σ) : ChangeStepFilterFunc D :=
  fun v => (f v s).map Prod.fst

/-- A filter without state as a filter closure, which leaves the state as it is. -/
def stateless {D σ : Type} (p : ChangeStepFilterFunc D) : FilterClosure D σ :=
  fun v s => (p v).map (fun b => (b, s))

/-- What the calls of the filters on a pointer come to, when they are called in the order
passed until one returns false: `some true` when all return true, `some false` when one
returns false after the ones before it returned true, and `none` when one panics after
the ones before it returned true. -/
def verdict {D : Type} : List (ChangeStepFilterFunc D) → StepPtr D → Option Bool
  | [], _ => some true
  | f :: rest, v =>
    match f v with
    | none => none
    | some false => some false
    | some true => verdict rest v

/-- The four predefined filters, in the order of their declaration. -/
def predefinedFilters {D : Type} : List (ChangeStepFilterFunc D) :=
  [CreateChangeStepFilter, UpdateChangeStepFilter, DeleteChangeStepFilter,
   UnChangeChangeStepFilter]

/-- The test whether a step pointer is non-nil and its step is classified, that is,
has an action other than `Undefined`. -/
def isClassified {D : Type} : StepPtr D → Bool
  | none => false
  | some c => decide (c.Action ≠ ActionType.Undefined)

/-- The test whether a step pointer is non-nil and its step has action `a`. -/
def hasAction {D : Type} (a : ActionType) : StepPtr D → Bool
  | none => false
  | some c => decide (c.Action = a)

/-! ## Sample ledgers -/

/-- A create step for resource `jack`. -/
def stepJack : ChangeStep Unit := { ID := "jack", Action := .Create, Old := (), New := () }

/-- An update step for resource `pony`. -/
def stepPony : ChangeStep Unit := { ID := "pony", Action := .Update, Old := (), New := () }

/-- A step for resource `eric` that has not been classified. -/
def stepEric : ChangeStep Unit := { ID := "eric", Action := .Undefined, Old := (), New := () }

/-- A ledger of three steps in the order jack, pony, eric. -/
def sampleOrder : ChangeOrder Unit where
  StepKeys := ["jack", "pony", "eric"]
  ChangeSteps := ⟨[⟨"pony", some stepPony⟩, ⟨"eric", some stepEric⟩, ⟨"jack", some stepJack⟩],
    by simp [List.NodupKeys, List.keys]⟩

/-- A ledger of the steps `a` and `b`, in this order. -/
def abOrder : ChangeOrder Unit where
  StepKeys := ["a", "b"]
  ChangeSteps := ⟨[⟨"a", some ⟨"a", .Create, (), ()⟩⟩, ⟨"b", some ⟨"b", .Create, (), ()⟩⟩],
    by simp [List.NodupKeys, List.keys]⟩

/-- The filter closure "the ID of the step is not `a`", which has no state. -/
def notA : FilterClosure Unit Nat :=
  stateless (fun v => some (decide (v.map (fun c => c.ID) ≠ some "a")))

/-- A filter closure with a call counter as its state: it returns true on its first call
only, and never panics. -/
def firstCallOnly : FilterClosure Unit Nat :=
  fun _ n => some (decide (n = 0), n + 1)

/-- The closure of the predefined Create filter with a counter of its calls as state; the
counter does not enter its outcome. -/
def countingCreate : FilterClosure Unit Nat :=
  fun v n => (CreateChangeStepFilter v).map (fun b => (b, n + 1))

/-- A filter closure that writes the action Delete through the pointer it is given and
returns true; the state lists the IDs of the steps rewritten so far. -/
def rewriteToDelete : FilterClosure Unit (List String) :=
  fun v s =>
    match v with
    | none => none
    | some c => some (true, c.ID :: s)

/-- The closure of the predefined Delete filter where steps can be rewritten: it tests
the action that is behind the pointer at the time of the call. -/
def readsDelete : FilterClosure Unit (List String) :=
  fun v s =>
    match v with
    | none => none
    | some c => some (decide (c.ID ∈ s) || decide (c.Action = ActionType.Delete), s)

/-- A ledger with the step `jack` and a second step key, `ghost`, that has no entry in
the map. -/
def ghostKeyOrder : ChangeOrder Unit where
  StepKeys := ["jack", "ghost"]
  ChangeSteps := ⟨[⟨"jack", some stepJack⟩], by simp [List.NodupKeys, List.keys]⟩

/-- A ledger whose only key stores the nil pointer. -/
def nilStoredOrder (D : Type) : ChangeOrder D where
  StepKeys := ["a"]
  ChangeSteps := ⟨[⟨"a", none⟩], by simp [List.NodupKeys, List.keys]⟩

/-- A ledger whose only step key has no entry in the map. -/
def danglingOrder (D : Type) : ChangeOrder D where
  StepKeys := ["a"]
  ChangeSteps := ⟨[], by simp [List.NodupKeys, List.keys]⟩

/-! ## Rendering a diff -/

/-- The white space characters of Go, `unicode.IsSpace`. -/
def isSpace (c : Char) : Bool :=
  decide (c.toNat ∈ [0x09, 0x0A, 0x0B, 0x0C, 0x0D, 0x20, 0x85, 0xA0, 0x1680, 0x2028, 0x2029,
      0x202F, 0x205F, 0x3000])
    || (decide (0x2000 ≤ c.toNat) && decide (c.toNat ≤ 0x200A))

/-- The library function `strings.TrimSpace`: the string without its leading and trailing
white space. -/
def TrimSpace (s : String) : String :=
  ⟨((s.data.dropWhile isSpace).reverse.dropWhile isSpace).reverse⟩

/-- The functions `ChangeStep.Diff` calls that are declared outside the sources at
hand, taken as parameters: the YAML merge and loader and the structural comparison used by
`diffToReport`, the report printer `diff.ToReportString`, the styles `pretty.GreenBold`,
`pretty.Green` and `pretty.Gray` (each applied to the text it formats), the rendering that
`pterm.Sprintf` applies to the text it formats (it renders colour tags), and
`ActionType.PrettyString`.  `D` is the type of the payloads, `F` of loaded input
files, `R` of reports. -/
structure DiffDeps (D F R : Type) where
  MergeToOneYAML : D → String
  LoadFile : String → String → Except GoError F
  CompareInputFiles : F → F → Except GoError R
  ToReportString : R → Except GoError String
  GreenBold : String → String
  Green : String → String
  Gray : String → String
  Sprintf : String → String
  PrettyString : ActionType → String

/-- The function `diffToReport`. -/
def diffToReport {D F R : Type} (E : DiffDeps D F R) (oldData newData : D) :
    Except GoError R :=
  match E.LoadFile (E.MergeToOneYAML oldData) "Old item" with
  | .error err => .error err
  | .ok src =>
    match E.LoadFile (E.MergeToOneYAML newData) "New item" with
    | .error err => .error err
    | .ok tgt =>
      match E.CompareInputFiles src tgt with
      | .error err => .error err
      | .ok report => .ok report

/-- The method `ChangeStep.Diff` on a non-nil receiver; the result is the Go pair
`(string, error)`. -/
def ChangeStep.Diff {D F R : Type} (E : DiffDeps D F R) (cs : ChangeStep D) :
    String × Option GoError :=
  match diffToReport E cs.Old cs.New with
  | .error err => ("", some err)
  | .ok diffReport =>
    match E.ToReportString diffReport with
    | .error err => ("", some err)
    | .ok reportString =>
      let buf := ""
      let buf := if cs.ID.length ≠ 0 then
          (buf ++ E.GreenBold "ID: ") ++ E.Green (cs.ID ++ "\n")
        else buf
      let buf := if cs.Action ≠ ActionType.Undefined then
          (buf ++ E.GreenBold "Plan: ") ++ E.Sprintf (E.PrettyString cs.Action ++ "\n")
        else buf
      let buf := buf ++ E.GreenBold "Diff: "
      let buf := if (TrimSpace reportString).length = 0 ∧ cs.Action = ActionType.UnChange then
          buf ++ E.Gray "<EMPTY>"
        else buf ++ ("\n" ++ TrimSpace reportString)
      let buf := buf ++ "\n"
      (buf, none)

/-- The loop of `Diffs` over the remaining keys, `buf` being the buffer written so far.
Calling `Diff` through a nil pointer panics. -/
def Diffs.loop {D F R : Type} (E : DiffDeps D F R) (o : ChangeOrder D) :
    List String → String → Option String
  | [], buf => some buf
  | key :: keys, buf =>
    match StepMap.index o.ChangeSteps key with
    | none => none
    | some step =>
      match step.Diff E with
      | (_, some _) => Diffs.loop E o keys buf
      | (diffString, none) => Diffs.loop E o keys (buf ++ diffString)

/-- The method `ChangeOrder.Diffs`. -/
def ChangeOrder.Diffs {D F R : Type} (E : DiffDeps D F R) (o : ChangeOrder D) :
    Option String :=
  Diffs.loop E o o.StepKeys ""

/-- What a step adds to the output of `Diffs`: the string returned by its `Diff()`, and
nothing when `Diff()` returns an error. -/
def contribution {D F R : Type} (E : DiffDeps D F R) (cs : ChangeStep D) : String :=
  match cs.Diff E with
  | (_, some _) => ""
  | (diffString, none) => diffString

/-- A text rendering of actions, standing for `PrettyString` in examples. -/
def plainAction : ActionType → String
  | .Undefined => "Undefined"
  | .UnChange => "UnChange"
  | .Create => "Create"
  | .Update => "Update"
  | .Delete => "Delete"

/-- Dependencies with styling disabled, for examples: payloads are YAML texts, a file is
its text, the report of two texts is empty when they are equal and otherwise lists both,
and a text containing a tab fails to load. -/
def plainDeps : DiffDeps String String String where
  MergeToOneYAML := fun d => d
  LoadFile := fun text location =>
    if text.data.contains (Char.ofNat 9) then .error ⟨"cannot load " ++ location⟩ else .ok text
  CompareInputFiles := fun a b => .ok (if a = b then "" else "- " ++ a ++ "\n+ " ++ b ++ "\n")
  ToReportString := fun r => .ok r
  GreenBold := fun s => s
  Green := fun s => s
  Gray := fun s => s
  Sprintf := fun s => s
  PrettyString := plainAction

/-- Dependencies with styling switched on, for examples: as `plainDeps`, but each style
wraps the text it formats in the escape sequence of its colour and the reset sequence. -/
def ansiDeps : DiffDeps String String String :=
  { plainDeps with
    GreenBold := fun s => "\x1b[32;1m" ++ s ++ "\x1b[0m"
    Green := fun s => "\x1b[32m" ++ s ++ "\x1b[0m"
    Gray := fun s => "\x1b[90m" ++ s ++ "\x1b[0m" }

/-- A ledger over YAML texts: an update of `jack`, a step for `pony` whose new payload fails
to load, and an unchanged `eric`. -/
def textOrder : ChangeOrder String where
  StepKeys := ["jack", "pony", "eric"]
  ChangeSteps := ⟨[⟨"eric", some ⟨"eric", .UnChange, "x: 1", "x: 1"⟩⟩,
      ⟨"jack", some ⟨"jack", .Update, "a: b", "a: c"⟩⟩,
      ⟨"pony", some ⟨"pony", .Create, "", "\tbad"⟩⟩],
    by simp [List.NodupKeys, List.keys]⟩

/-! ## Compile and preview options -/

/-- The struct `CompileFlags`. -/
structure CompileFlags where
  Output : String
  WorkDir : String
  Settings : List String
  Arguments : List String
  Overrides : List String
  DisableNone : Bool
  OverrideAST : Bool
deriving DecidableEq, Repr

/-- The struct `CompileOptions`, which embeds `CompileFlags`. -/
structure CompileOptions extends CompileFlags where
  IsCheck : Bool
  Filenames : List String
deriving DecidableEq, Repr

/-- The backward scan of `filepath.Ext` over the characters before the current position,
last character first; `suffix` is the part of the path after the current position.  The
scan stops at a path separator. -/
def Ext.scan : List Char → List Char → List Char
  | [], _ => []
  | c :: before, suffix =>
    if c = '/' then []
    else if c = '.' then c :: suffix
    else Ext.scan before (c :: suffix)

/-- The library function `filepath.Ext` (with the separator of Unix): the suffix of the
path that begins at the last dot of its last element, empty when there is no dot. -/
def Ext (path : String) : String :=
  ⟨Ext.scan path.data.reverse []⟩

/-- The text `fmt` prints for a slice of strings under the verb `%v`: the elements,
separated by blanks, between square brackets. -/
def fmtStrings (l : List String) : String :=
  "[" ++ " ".intercalate l ++ "]"

/-- The loop of `CompileOptions.Validate` over the remaining file names, `wrongFiles`
being the slice built so far. -/
def Validate.collect : List String → List String → List String
  | [], wrongFiles => wrongFiles
  | filename :: rest, wrongFiles =>
    if Ext filename ≠ ".k" then Validate.collect rest (wrongFiles ++ [filename])
    else Validate.collect rest wrongFiles

/-- The method `CompileOptions.Validate`: the options after the call and the error
returned. -/
def CompileOptions.Validate (o : CompileOptions) : CompileOptions × Option GoError :=
  let wrongFiles := Validate.collect o.Filenames []
  if wrongFiles.length ≠ 0 then
    (o, some ⟨"you can only compile files with suffix .k, these are wrong files: " ++
      fmtStrings wrongFiles⟩)
  else (o, none)

/-- The struct `PreviewFlags`. -/
structure PreviewFlags where
  Operator : String
  Detail : Bool
  All : Bool
  NoStyle : Bool
  IgnoreFields : List String
deriving DecidableEq, Repr

/-- The struct `PreviewOptions`; `B` stands for the embedded `backend.BackendOps`, which
is declared outside the sources at hand. -/
structure PreviewOptions (B : Type) where
  CompileOptions : CompileOptions
  PreviewFlags : PreviewFlags
  BackendOps : B

/-- The method `PreviewOptions.Validate`: the options after the call and the error
returned. -/
def PreviewOptions.Validate {B : Type} (o : PreviewOptions B) :
    PreviewOptions B × Option GoError :=
  let r := o.CompileOptions.Validate
  ({ o with CompileOptions := r.1 }, r.2)

/-- Compile options with the given file names and nothing else set. -/
def optionsFor (files : List String) : CompileOptions where
  Output := ""
  WorkDir := ""
  Settings := []
  Arguments := []
  Overrides := []
  DisableNone := false
  OverrideAST := false
  IsCheck := false
  Filenames := files

/-! ## Resources and reference resolution -/

/-- Modelled from the spec: the attribute trees of resources, which the sources at hand do
not declare; section 9 of the specification gives them as the tagged variant
`Null | Bool | Number | String | List<Value> | Map<String, Value>`. -/
inductive Value where
  | null
  | bool (b : Bool)
  | number (n : Int)
  | str (s : String)
  | list (xs : List Value)
  | map (kvs : List (String × Value))

/-- Modelled from the spec: a resource, planned or live (section 3): its ID, its attribute
tree, a map at the root, and the IDs it depends on. -/
structure Resource where
  ID : String
  Attributes : List (String × Value)
  DependsOn : List String

/-- Modelled from the spec: the kinds of error of section 7. -/
inductive StatusKind where
  | IllegalManifest
  | ConfigFault
  | RuntimeError
  | StateError
  | Conflict
  | Cancelled
  | Internal
deriving DecidableEq, Repr

/-- Modelled from the spec: an error status, with its kind and message (section 7); the
nil status, which stands for success, is `none` of `Option Status`. -/
structure Status where
  kind : StatusKind
  msg : String
deriving DecidableEq, Repr

/-- Modelled from the spec: the constructor `status.NewErrorStatusWithMsg` of an error
status from its kind and message, which the test calls and the sources at hand do not
declare. -/
def NewErrorStatusWithMsg (kind : StatusKind) (msg : String) : Status :=
  { kind := kind, msg := msg }

/-- Modelled from the spec: the constant `ImplicitRefPrefix`, which the test uses and the
sources at hand do not declare; by section 6 of the specification it is the literal
`$kusion_path:`. -/
def ImplicitRefPrefix : String := "$kusion_path:"

/-- Modelled from the spec: the token of a placeholder, that is, what follows the reserved
reference marker in a string scalar that begins with it (section 3). -/
def refToken (s : String) : Option String :=
  if ImplicitRefPrefix.data.isPrefixOf s.data then
    some ⟨s.data.drop ImplicitRefPrefix.data.length⟩
  else none

/-- Modelled from the spec: the segments of a token, which are separated by dots. -/
def splitDots : List Char → List (List Char)
  | [] => [[]]
  | c :: cs =>
    if c = '.' then [] :: splitDots cs
    else
      match splitDots cs with
      | [] => [[c]]
      | seg :: segs => (c :: seg) :: segs

/-- Modelled from the spec: the resource ID of a token, its first segment (section 4.1). -/
def refTarget (token : String) : String :=
  match splitDots token.data with
  | [] => ""
  | seg :: _ => ⟨seg⟩

/-- Modelled from the spec: the path of a token, the segments after the first. -/
def refPath (token : String) : List String :=
  match splitDots token.data with
  | [] => []
  | _ :: segs => segs.map String.mk

/-- Modelled from the spec: a decimal list index, read digit by digit. -/
def parseDigits : List Char → Nat → Option Nat
  | [], acc => some acc
  | c :: cs, acc => if c.isDigit then parseDigits cs (10 * acc + (c.toNat - 48)) else none

/-- Modelled from the spec: one step of a path; a segment addresses a key of a map or an
index of a list (section 3), and is missing in every other case. -/
def Value.child (v : Value) (seg : String) : Option Value :=
  match v with
  | .map kvs => kvs.lookup seg
  | .list xs =>
    if seg.data = [] then none
    else
      match parseDigits seg.data 0 with
      | some i => xs[i]?
      | none => none
  | _ => none

/-- Modelled from the spec: the traversal of a path from a value (section 4.1). -/
def Value.follow : Value → List String → Option Value
  | v, [] => some v
  | v, seg :: rest =>
    match v.child seg with
    | none => none
    | some w => Value.follow w rest

/-- Modelled from the spec: the error of a placeholder that does not resolve, of kind
`IllegalManifest` with the message of section 4.1 and of property 6 of section 8. -/
def refError (token : String) : Status :=
  NewErrorStatusWithMsg StatusKind.IllegalManifest
    ("can't find specified value in resource:" ++ refTarget token ++ " by ref:" ++ token)

/-- Modelled from the spec: the resolution of one token against the resource index (section
4.1): look up the target, fail if it is absent; traverse the path through its attributes,
fail if a segment is missing; the result is the subtree that is found. -/
def resolveRef (index : List (String × Resource)) (token : String) : Except Status Value :=
  match index.lookup (refTarget token) with
  | none => .error (refError token)
  | some r =>
    match Value.follow (Value.map r.Attributes) (refPath token) with
    | none => .error (refError token)
    | some v => .ok v

mutual
/-- Modelled from the spec: the reference resolver of section 4.1 on a value: a depth-first
walk of the attribute tree that replaces each placeholder string by the value it addresses
and stops at the first placeholder that does not resolve. -/
def resolveValue (index : List (String × Resource)) : Value → Except Status Value
  | .null => .ok .null
  | .bool b => .ok (.bool b)
  | .number n => .ok (.number n)
  | .str s =>
    match refToken s with
    | some token => resolveRef index token
    | none => .ok (.str s)
  | .list xs =>
    match resolveList index xs with
    | .error e => .error e
    | .ok ys => .ok (.list ys)
  | .map kvs =>
    match resolveFields index kvs with
    | .error e => .error e
    | .ok kvs1 => .ok (.map kvs1)
/-- Modelled from the spec: the reference resolver on the elements of a list, in order. -/
def resolveList (index : List (String × Resource)) : List Value → Except Status (List Value)
  | [] => .ok []
  | x :: xs =>
    match resolveValue index x with
    | .error e => .error e
    | .ok y =>
      match resolveList index xs with
      | .error e => .error e
      | .ok ys => .ok (y :: ys)
/-- Modelled from the spec: the reference resolver on the fields of a map, in order. -/
def resolveFields (index : List (String × Resource)) :
    List (String × Value) → Except Status (List (String × Value))
  | [] => .ok []
  | (k, x) :: kvs =>
    match resolveValue index x with
    | .error e => .error e
    | .ok y =>
      match resolveFields index kvs with
      | .error e => .error e
      | .ok kvs1 => .ok ((k, y) :: kvs1)
end

mutual
/-- The tokens of the placeholders of a value, in the order of the depth-first walk. -/
def placeholdersValue : Value → List String
  | .null => []
  | .bool _ => []
  | .number _ => []
  | .str s =>
    match refToken s with
    | some token => [token]
    | none => []
  | .list xs => placeholdersList xs
  | .map kvs => placeholdersFields kvs
/-- The tokens of the placeholders of the elements of a list, in order. -/
def placeholdersList : List Value → List String
  | [] => []
  | x :: xs => placeholdersValue x ++ placeholdersList xs
/-- The tokens of the placeholders of the fields of a map, in order. -/
def placeholdersFields : List (String × Value) → List String
  | [] => []
  | (_, x) :: kvs => placeholdersValue x ++ placeholdersFields kvs
end

/-- The test whether a token resolves against the resource index. -/
def resolvable (index : List (String × Resource)) (token : String) : Bool :=
  match resolveRef index token with
  | .ok _ => true
  | .error _ => false

/-- The first token of a list, if any, that does not resolve against the resource index. -/
def firstUnresolved (index : List (String × Resource)) (tokens : List String) : Option String :=
  tokens.find? (fun t => !resolvable index t)

/-- The outcome of a resolution agrees with the tokens it meets: it fails with the error of
the first token that does not resolve, and succeeds when all of them resolve. -/
def FailsAtFirst {α : Type} (index : List (String × Resource)) (tokens : List String)
    (res : Except Status α) : Prop :=
  match firstUnresolved index tokens with
  | some token => res = .error (refError token)
  | none => ∃ y, res = .ok y

/-- The token names a resource of the index, and its path does not exist in the attributes
of that resource. -/
def pathMissing (index : List (String × Resource)) (token : String) : Prop :=
  ∃ r, index.lookup (refTarget token) = some r ∧
    Value.follow (Value.map r.Attributes) (refPath token) = none

/-! ## The preview command -/

/-- The struct `projectstack.Project`, with the fields that `Preview` reads. -/
structure Project where
  Name : String
  Tenant : String
deriving DecidableEq, Repr

/-- The struct `projectstack.Stack`, with the field that `Preview` reads. -/
structure Stack where
  Name : String
deriving DecidableEq, Repr

/-- The struct `Changes`: an embedded `*ChangeOrder` and the project and stack pointers. -/
structure Changes (D : Type) where
  ChangeOrder : Option (ChangeOrder D)
  project : Option Project
  stack : Option Stack

/-- The constructor `NewChanges`. -/
def NewChanges {D : Type} (p : Option Project) (s : Option Stack)
    (order : Option (ChangeOrder D)) : Changes D :=
  { ChangeOrder := order, project := p, stack := s }

/-- The method `Changes.Stack`. -/
def Changes.Stack {D : Type} (p : Changes D) : Option Stack := p.stack

/-- The method `Changes.Project`. -/
def Changes.Project {D : Type} (p : Changes D) : Option Project := p.project

/-- Modelled from the spec: the declaration of the operation types is not part of the
sources at hand; section 1 of the specification names the two modes, apply and preview,
and the sources refer to them as `Apply` and `ApplyPreview`. -/
inductive OperationType where
  | Apply
  | ApplyPreview
deriving DecidableEq, Repr

/-- The struct `Operation`, with the fields that `Preview` sets; `Rt` and `St` are the
types of the runtime and of the state storage. -/
structure Operation (Rt St D : Type) where
  OperationType : OperationType
  Runtime : Rt
  StateStorage : St
  IgnoreFields : List String
  ChangeOrder : Option (ChangeOrder D)

/-- The struct `Request`, with the fields that `Preview` sets. -/
structure Request (Sp : Type) where
  Tenant : String
  Project : String
  Stack : String
  Operator : String
  Spec : Option Sp
  Cluster : String

/-- Modelled from the spec: the declaration of the preview response is not part of the
sources at hand; by section 6 of the specification the preview operation returns a change
order together with a status, so the response is a record that carries the `Order`
pointer. -/
structure PreviewResponse (D : Type) where
  Order : Option (ChangeOrder D)

/-- What `Preview` uses and the sources at hand do not declare, taken as parameters:
`ParseCluster` of the spec (`none` when the call panics), the preview operation of the
engine `pc.Preview`, and `status.IsErr` and `String` on statuses of type `Status`. -/
structure PreviewDeps (Rt St Sp Status D : Type) where
  ParseCluster : Option Sp → Option String
  enginePreview : Operation Rt St D → Request Sp → PreviewResponse D × Status
  IsErr : Status → Bool
  statusString : Status → String

/-- The preview operation that `Preview` constructs. -/
def previewOperation {Rt St D B : Type} (o : PreviewOptions B) (runtime : Rt)
    (storage : St) : Operation Rt St D :=
  { OperationType := OperationType.ApplyPreview
    Runtime := runtime
    StateStorage := storage
    IgnoreFields := o.PreviewFlags.IgnoreFields
    ChangeOrder := some { StepKeys := [], ChangeSteps := ∅ } }

/-- The request that `Preview` passes to the preview operation. -/
def previewRequest {Sp B : Type} (o : PreviewOptions B) (planResources : Option Sp)
    (project : Project) (stack : Stack) (cluster : String) : Request Sp :=
  { Tenant := project.Tenant
    Project := project.Name
    Stack := stack.Name
    Operator := o.PreviewFlags.Operator
    Spec := planResources
    Cluster := cluster }

/-- The function `Preview` of the preview command.  The result is `none` when the call
panics on a nil argument, and otherwise the Go pair `(*Changes, error)`. -/
def Preview {Rt St Sp Status D B : Type} (E : PreviewDeps Rt St Sp Status D)
    (o : Option (PreviewOptions B)) (runtime : Rt) (storage : St)
    (planResources : Option Sp) (project : Option Project) (stack : Option Stack) :
    Option (Option (Changes D) × Option GoError) :=
  match o with
  | none => none
  | some opts =>
    let pc : Operation Rt St D := previewOperation opts runtime storage
    match E.ParseCluster planResources with
    | none => none
    | some cluster =>
      match project, stack with
      | some proj, some stk =>
        let r := E.enginePreview pc (previewRequest opts planResources proj stk cluster)
        if E.IsErr r.2 then
          some (none, some ⟨"preview failed.\n" ++ E.statusString r.2⟩)
        else
          some (some (NewChanges project stack r.1.Order), none)
      | _, _ => none

/-- Preview options with nothing set. -/
def emptyPreviewOptions : PreviewOptions Unit where
  CompileOptions := optionsFor []
  PreviewFlags := ⟨"", false, false, false, []⟩
  BackendOps := ()

/-- Sample dependencies: statuses are optional messages, an error exactly when present;
the engine reports the error `illegal manifest` when the spec is absent, and otherwise
returns the sample ledger. -/
def sampleDeps : PreviewDeps Unit Unit String (Option String) Unit where
  ParseCluster := fun _ => some "cluster"
  enginePreview := fun _ req =>
    match req.Spec with
    | none => (⟨none⟩, some "illegal manifest")
    | some _ => (⟨some sampleOrder⟩, none)
  IsErr := fun s => s.isSome
  statusString := fun s => s.getD ""

mutual
/-- The test whether two attribute values are the same tree. -/
def sameValue : Value → Value → Bool
  | .null, .null => true
  | .bool a, .bool b => decide (a = b)
  | .number a, .number b => decide (a = b)
  | .str a, .str b => decide (a = b)
  | .list xs, .list ys => sameList xs ys
  | .map kvs, .map kws => sameFields kvs kws
  | _, _ => false
/-- The test whether two lists of attribute values are the same, element by element. -/
def sameList : List Value → List Value → Bool
  | [], [] => true
  | x :: xs, y :: ys => sameValue x y && sameList xs ys
  | _, _ => false
/-- The test whether two field lists are the same, field by field. -/
def sameFields : List (String × Value) → List (String × Value) → Bool
  | [], [] => true
  | (k, x) :: kvs, (l, y) :: kws => decide (k = l) && sameValue x y && sameFields kvs kws
  | _, _ => false
end

/-- A comparison under a field mask, for examples: the attributes of the two resources
are the same once the fields named by the mask are left out. -/
def sameAttributesUnderMask (mask : List String) (live planned : Resource) : Bool :=
  sameFields (live.Attributes.filter (fun e => decide (e.1 ∉ mask)))
    (planned.Attributes.filter (fun e => decide (e.1 ∉ mask)))

/-! ## The execution of a resource node (modelled from the specification) -/

namespace Engine

/-- Modelled from the spec: the state snapshot of section 3, with the fields an execution
touches, the serial number and the live resources. -/
structure State where
  Serial : Nat
  Resources : List Resource

/-- Modelled from the spec: the runtime interface of section 6.  A non-nil status signals
failure; `Read` returning no resource and no status means that the resource is not
found. -/
structure Runtime where
  Apply : Option Resource → Option Resource → Option Resource × Option Status
  Read : Option Resource → Option Resource × Option Status
  Delete : Option Resource → Option Status

/-- Modelled from the spec: the state storage interface of section 6, of which an
execution calls `Apply`. -/
structure StateStorage where
  Apply : State → Option GoError

/-- Modelled from the spec: the operation record a node is executed against, with the
fields the test sets: the mode, the state storage, the resource indexes, the accumulated
result state and the runtime; further the field mask and the change order of the
operation request, and the comparison of a live with a planned resource under the field
mask (section 4.3), which the specification leaves open and is taken as a parameter. -/
structure Operation where
  OperationType : OperationType
  StateStorage : StateStorage
  CtxResourceIndex : List (String × Resource)
  PriorStateResourceIndex : List (String × Resource)
  StateResourceIndex : List (String × Resource)
  resultState : State
  Runtime : Runtime
  IgnoreFields : List String
  ChangeOrder : ChangeOrder (Option Resource)
  sameUnderMask : List String → Resource → Resource → Bool

/-- Modelled from the spec: the graph node of section 3, with its ID, its action, and the
planned and the prior resource. -/
structure ResourceNode where
  ID : String
  Action : ActionType
  planned : Option Resource
  prior : Option Resource

/-- Modelled from the spec: step 1 of `execute` (section 4.5), the resolution of the
references of the planned resource against the in-run resource index. -/
def resolvePlanned (index : List (String × Resource)) :
    Option Resource → Except Status (Option Resource)
  | none => .ok none
  | some r =>
    match resolveFields index r.Attributes with
    | .error s => .error s
    | .ok attrs => .ok (some { r with Attributes := attrs })

/-- Modelled from the spec: step 2 of `execute` (section 4.5): no runtime read for the
actions Create and Delete; otherwise `Runtime.Read` of the prior resource, where a
resource that is not found turns the action into Create and a failing read fails the
node.  The result is the action and the live resource. -/
def readLive (rt : Runtime) (rn : ResourceNode) : Except Status (ActionType × Option Resource) :=
  match rn.Action with
  | .Create => .ok (.Create, none)
  | .Delete => .ok (.Delete, none)
  | a =>
    match rt.Read rn.prior with
    | (_, some s) => .error s
    | (none, none) => .ok (.Create, none)
    | (some live, none) => .ok (a, some live)

/-- Modelled from the spec: the classification of section 4.3: a node that was read is
`UnChange` when the live and the planned resource are equal under the field mask, and
`Update` when they differ. -/
def classify (op : Operation) (action : ActionType) (live planned : Option Resource) :
    ActionType :=
  match action, live, planned with
  | .Create, _, _ => .Create
  | .Delete, _, _ => .Delete
  | _, some l, some p => if op.sameUnderMask op.IgnoreFields l p then .UnChange else .Update
  | a, _, _ => a

/-- Modelled from the spec: the change step of a classified node (section 4.3): for Create
the old side is nil and the new side is the planned resource, for Delete the old side is
the prior resource and the new side is nil, and otherwise the old side is the live and the
new side the planned resource. -/
def changeStep (rn : ResourceNode) (action : ActionType) (live planned : Option Resource) :
    ChangeStep (Option Resource) :=
  match action with
  | .Create => { ID := rn.ID, Action := action, Old := none, New := planned }
  | .Delete => { ID := rn.ID, Action := action, Old := rn.prior, New := none }
  | _ => { ID := rn.ID, Action := action, Old := live, New := planned }

/-- Modelled from the spec: the operation `Add` of the change ledger (section 4.6), which
appends the key and stores the step under it. -/
def addStep (o : ChangeOrder (Option Resource)) (step : ChangeStep (Option Resource)) :
    ChangeOrder (Option Resource) :=
  { StepKeys := o.StepKeys ++ [step.ID], ChangeSteps := o.ChangeSteps.insert step.ID (some step) }

/-- The resources other than the one with the given ID. -/
def withoutID (id : String) (rs : List Resource) : List Resource :=
  rs.filter (fun r => decide (r.ID ≠ id))

/-- The resources with the entry of the given ID replaced by, or extended with, the live
resource. -/
def withLive (id : String) (live : Option Resource) (rs : List Resource) : List Resource :=
  match live with
  | none => withoutID id rs
  | some l => withoutID id rs ++ [l]

/-- Modelled from the spec: the runtime call of `execute` in apply mode (section 4.5):
`Runtime.Apply(nil, planned)` for Create, `Runtime.Apply(prior, planned)` for Update,
`Runtime.Delete(prior)` for Delete, and no call for an unchanged node.  The result is the
resources of the result state after the call. -/
def applyAction (rt : Runtime) (rn : ResourceNode) (action : ActionType)
    (planned : Option Resource) (resources : List Resource) : Except Status (List Resource) :=
  match action with
  | .Create =>
    match rt.Apply none planned with
    | (_, some s) => .error s
    | (live, none) => .ok (withLive rn.ID live resources)
  | .Update =>
    match rt.Apply rn.prior planned with
    | (_, some s) => .error s
    | (live, none) => .ok (withLive rn.ID live resources)
  | .Delete =>
    match rt.Delete rn.prior with
    | some s => .error s
    | none => .ok (withoutID rn.ID resources)
  | _ => .ok resources

/-- Modelled from the spec: the in-run resource index after a node, into which the resolved
planned resource of the node is written (section 5). -/
def writeIndex (index : List (String × Resource)) (id : String) :
    Option Resource → List (String × Resource)
  | none => index
  | some r => (id, r) :: index.filter (fun e => decide (e.1 ≠ id))

/-- Modelled from the spec: `ResourceNode.Execute`, which is not part of the sources at hand
(only its test is), after `execute` of section 4.5: resolve the references of the planned
resource; read the live resource unless the action is Create or Delete; classify and
append the change step; in apply mode call the runtime for the action and commit the
result state, with its serial number incremented, to the state storage.  The result is
the status returned, nil for success, and the operation record after the call. -/
def Execute (rn : ResourceNode) (op : Operation) : Option Status × Operation :=
  match resolvePlanned op.CtxResourceIndex rn.planned with
  | .error s => (some s, op)
  | .ok planned =>
    match readLive op.Runtime rn with
    | .error s => (some s, op)
    | .ok (readAction, live) =>
      let action := classify op readAction live planned
      let op1 := { op with ChangeOrder := addStep op.ChangeOrder (changeStep rn action live planned) }
      match op.OperationType with
      | .ApplyPreview => (none, op1)
      | .Apply =>
        match applyAction op.Runtime rn action planned op1.resultState.Resources with
        | .error s => (some s, op1)
        | .ok resources =>
          let next : State := { Serial := op1.resultState.Serial + 1, Resources := resources }
          match op.StateStorage.Apply next with
          | some err => (some (NewErrorStatusWithMsg StatusKind.StateError err.msg), op1)
          | none =>
            (none, { op1 with
              resultState := next
              CtxResourceIndex := writeIndex op1.CtxResourceIndex rn.ID planned })

/-! ### The scenario of the test -/

/-- The resource `pony` of the test. -/
def Pony : Resource := { ID := "pony", Attributes := [("c", .str "d")], DependsOn := ["jack"] }

/-- The resource `eric` of the test, whose attribute `a` refers to `jack.a.b`. -/
def Eric : Resource :=
  { ID := "eric", Attributes := [("a", .str (ImplicitRefPrefix ++ "jack.a.b"))],
    DependsOn := ["pony"] }

/-- The resource `jack` of the test. -/
def Jack : Resource :=
  { ID := "jack", Attributes := [("a", .map [("b", .str "c")])], DependsOn := [] }

/-- The resource index of the test. -/
def priorStateResourceIndex : List (String × Resource) :=
  [("pony", Pony), ("eric", Eric), ("jack", Jack)]

/-- The resource state `newResourceState` of the test. -/
def newResourceState : Resource := Eric

/-- The resource state `illegalResourceState` of the test, whose attribute `a` refers to a
field that `jack` does not have. -/
def illegalResourceState : Resource :=
  { ID := "eric", Attributes := [("a", .str (ImplicitRefPrefix ++ "jack.notExist"))],
    DependsOn := ["pony"] }

/-- The runtime of the test: `Apply` returns the new resource state with attribute `a` set
to `c`, `Delete` succeeds, and `Read` returns its argument. -/
def mockRuntime : Runtime where
  Apply := fun _ _ => (some { newResourceState with Attributes := [("a", .str "c")] }, none)
  Read := fun resourceState => (resourceState, none)
  Delete := fun _ => none

/-- A runtime whose `Apply` fails on every call; `Delete` succeeds and `Read` returns its
argument. -/
def failingApplyRuntime : Runtime where
  Apply := fun _ _ => (none, some (NewErrorStatusWithMsg StatusKind.RuntimeError "apply failed"))
  Read := fun resourceState => (resourceState, none)
  Delete := fun _ => none

/-- The new resource state of the test with its reference replaced by the value of
`jack.a.b`. -/
def resolvedState : Resource := { newResourceState with Attributes := [("a", .str "c")] }

/-- The state storage of the test, whose `Apply` succeeds. -/
def mockStorage : StateStorage where
  Apply := fun _ => none

/-- The operation of the test, in apply mode, with all three resource indexes set to the
index of the test and an empty result state; a live and a planned resource are compared
by their attributes under the field mask. -/
def testOperation : Operation where
  OperationType := OperationType.Apply
  StateStorage := mockStorage
  CtxResourceIndex := priorStateResourceIndex
  PriorStateResourceIndex := priorStateResourceIndex
  StateResourceIndex := priorStateResourceIndex
  resultState := { Serial := 0, Resources := [] }
  Runtime := mockRuntime
  IgnoreFields := []
  ChangeOrder := { StepKeys := [], ChangeSteps := ∅ }
  sameUnderMask := sameAttributesUnderMask

/-- The node of the test: its ID is `jack`, its planned resource the given state, and its
prior resource the entry of that state in the index. -/
def testNode (action : ActionType) (state : Resource) : ResourceNode :=
  { ID := "jack", Action := action, planned := some state,
    prior := priorStateResourceIndex.lookup state.ID }

/-- A resource state with three placeholders: `jack.a.b`, which resolves, in the field `a`,
and then `jack.x` before `jack.y`, neither of which resolves, in the list of the field
`b`. -/
def orderedRefs : Resource :=
  { ID := "eric",
    Attributes := [("a", .str (ImplicitRefPrefix ++ "jack.a.b")),
      ("b", .list [.str (ImplicitRefPrefix ++ "jack.x"), .str (ImplicitRefPrefix ++ "jack.y")])],
    DependsOn := [] }

/-- A resource state with two placeholders in a list: `ghost.a`, whose target is not in the
index, before `jack.y`, whose path does not exist in `jack`. -/
def ghostFirst : Resource :=
  { ID := "eric",
    Attributes := [("a", .list [.str (ImplicitRefPrefix ++ "ghost.a"),
      .str (ImplicitRefPrefix ++ "jack.y")])],
    DependsOn := [] }

/-- A node with two placeholders that do not resolve, `jack.x` before `jack.y`. -/
def twoMissing : Resource :=
  { ID := "eric",
    Attributes := [("a", .list [.str (ImplicitRefPrefix ++ "jack.x"),
      .str (ImplicitRefPrefix ++ "jack.y")])],
    DependsOn := [] }

end Engine

/-! ## Defaults of the compile options -/

/-- The constant `Stdout`. -/
def Stdout : String := "stdout"

/-- What `PreSet` and `Complete` use and the sources at hand do not declare, taken as
parameters: the working directory that `os.Getwd` reports (its error is discarded), the
library function `filepath.Join` on two elements, the constants `CiTestDir`,
`SettingsFile`, `KclFile` and `StdoutGoldenFile` of the package `projectstack`, and its
function `IsStack`. -/
structure PreSetDeps where
  Getwd : String
  Join : String → String → String
  CiTestDir : String
  SettingsFile : String
  KclFile : String
  StdoutGoldenFile : String
  IsStack : String → Bool

/-- The directory `curDir` that `PreSet` passes to `preCheck`: the work directory of the
options, or the current directory when that is empty. -/
def PreSet.curDir (E : PreSetDeps) (o : CompileOptions) : String :=
  if o.WorkDir = "" then E.Getwd else o.WorkDir

/-- The method `CompileOptions.PreSet`: the options after the call. -/
def CompileOptions.PreSet (E : PreSetDeps) (o : CompileOptions) (preCheck : String → Bool) :
    CompileOptions :=
  let curDir := PreSet.curDir E o
  if !preCheck curDir then
    if o.Output = "" then { o with Output := Stdout } else o
  else
    let o1 : CompileOptions :=
      if o.Settings.length = 0 then
        { o with Settings := [E.Join E.CiTestDir E.SettingsFile, E.KclFile] }
      else o
    if o1.Output = "" then { o1 with Output := E.Join E.CiTestDir E.StdoutGoldenFile } else o1

/-- The method `CompileOptions.Complete`: the options after the call. -/
def CompileOptions.Complete (E : PreSetDeps) (o : CompileOptions) (args : List String) :
    CompileOptions :=
  CompileOptions.PreSet E { o with Filenames := args } E.IsStack

/-- When each filter returns the value of a predicate on `v`, the inner loop stops
before the end of the filter list exactly when some predicate rejects `v`. -/
lemma Values.scan_spec {D : Type} (v : StepPtr D) (fs : List (ChangeStepFilterFunc D))
    (ps : List (StepPtr D → Bool))
    (h : List.Forall₂ (fun f p => f v = some (p v)) fs ps) (i : Nat) :
    ∃ j, Values.scan v fs i = some j ∧
      (j < i + fs.length ↔ ps.all (fun p => p v) = false) := by
  induction h generalizing i with
  | nil => exact ⟨i, rfl, by simp⟩
  | @cons f p fs ps hfp _ ih =>
    cases hp : p v with
    | false =>
      refine ⟨i, ?_, ?_⟩
      · simp [Values.scan, hfp, hp]
      · simp [hp]
    | true =>
      obtain ⟨j, hj, hlt⟩ := ih (i + 1)
      refine ⟨j, ?_, ?_⟩
      · simp [Values.scan, hfp, hp, hj]
      · have : i + 1 + fs.length = i + (fs.length + 1) := by omega
        simp only [List.length_cons, List.all_cons, hp, Bool.true_and]
        rw [← this]; exact hlt

/-- The outer loop appends, in key order, the looked-up pointers accepted by every
predicate, as long as each filter returns the value of its predicate on every
pointer that is looked up. -/
lemma Values.loop_spec {D : Type} (o : ChangeOrder D) (fs : List (ChangeStepFilterFunc D))
    (ps : List (StepPtr D → Bool)) (keys : List String)
    (h : ∀ k ∈ keys, List.Forall₂
      (fun f p => f (StepMap.index o.ChangeSteps k) = some (p (StepMap.index o.ChangeSteps k)))
      fs ps)
    (result : List (StepPtr D)) :
    Values.loop o fs keys result =
      some (result ++ (keys.map (StepMap.index o.ChangeSteps)).filter
        (fun v => ps.all (fun p => p v))) := by
  induction keys generalizing result with
  | nil => simp [Values.loop]
  | cons k keys ih =>
    have hk := h k (List.mem_cons_self k keys)
    have hrest : ∀ k1 ∈ keys, List.Forall₂
        (fun f p => f (StepMap.index o.ChangeSteps k1) =
          some (p (StepMap.index o.ChangeSteps k1))) fs ps :=
      fun k1 hk1 => h k1 (List.mem_cons_of_mem k hk1)
    obtain ⟨j, hj, hlt⟩ := Values.scan_spec _ fs ps hk 0
    simp only [Nat.zero_add] at hlt
    simp only [Values.loop, hj]
    by_cases hall : ps.all (fun p => p (StepMap.index o.ChangeSteps k)) = true
    · have hnot : ¬ j < fs.length := by
        intro hjl; rw [hlt.mp hjl] at hall; exact Bool.false_ne_true hall
      rw [if_neg hnot, ih hrest]
      simp [List.filter_cons, hall]
    · have hfalse : ps.all (fun p => p (StepMap.index o.ChangeSteps k)) = false := by
        simpa using hall
      rw [if_pos (hlt.mpr hfalse), ih hrest]
      simp [List.filter_cons, hfalse]

/-- The filters of a list that all return on the pointers looked up from a list of keys
agree there with the predicates "returns true". -/
lemma forall₂_accepts {D : Type} (v : StepPtr D) (fs : List (ChangeStepFilterFunc D))
    (h : ∀ f ∈ fs, (f v).isSome) :
    List.Forall₂ (fun f p => f v = some (p v)) fs (fs.map accepts) := by
  induction fs with
  | nil => exact List.Forall₂.nil
  | cons f fs ih =>
    refine List.Forall₂.cons ?_ (ih (fun g hg => h g (List.mem_cons_of_mem f hg)))
    have hf := h f (List.mem_cons_self f fs)
    cases hv : f v with
    | none => rw [hv] at hf; exact absurd hf (by simp)
    | some b => cases b <;> simp [accepts, hv]

/-- When every filter returns on every looked-up pointer, `Values` is the filter of the
looked-up pointers by "every filter returns true". -/
lemma Values_of_returnsOn {D : Type} (o : ChangeOrder D) (fs : List (ChangeStepFilterFunc D))
    (h : returnsOn o fs) :
    o.Values fs = some ((o.StepKeys.map o.Get).filter (fun v => fs.all (fun f => accepts f v))) := by
  have hall : ∀ v : StepPtr D,
      (fs.map accepts).all (fun p => p v) = fs.all (fun f => accepts f v) := by
    intro v
    clear h
    induction fs with
    | nil => rfl
    | cons a as ih => simp only [List.map_cons, List.all_cons, ih]
  have hget : o.Get = StepMap.index o.ChangeSteps := rfl
  have hl := Values.loop_spec o fs (fs.map accepts) o.StepKeys
    (fun k hk => forall₂_accepts _ fs (fun f hf => h f hf k hk)) []
  simp only [hall, List.nil_append] at hl
  rw [hget]
  exact hl

/-- With no filter at all, `Values` returns the looked-up pointer of every key. -/
lemma Values_nil {D : Type} (o : ChangeOrder D) :
    o.Values [] = some (o.StepKeys.map o.Get) := by
  have h := Values_of_returnsOn o [] (fun f hf => absurd hf (List.not_mem_nil f))
  simpa using h

/-- When the calls of the filters on a pointer come to a boolean, it is the conjunction
"every filter returns true". -/
lemma verdict_eq_all {D : Type} (fs : List (ChangeStepFilterFunc D)) (v : StepPtr D)
    (b : Bool) (h : verdict fs v = some b) : b = fs.all (fun f => accepts f v) := by
  induction fs with
  | nil =>
    simp only [verdict, Option.some.injEq] at h
    simp [← h]
  | cons f fs ih =>
    cases hf : f v with
    | none => simp [verdict, hf] at h
    | some c =>
      cases c with
      | false =>
        simp only [verdict, hf, Option.some.injEq] at h
        simp [← h, accepts, hf]
      | true =>
        simp only [verdict, hf] at h
        simp [ih h, accepts, hf]

/-- Filters that all return on a pointer do not panic when called on it in order. -/
lemma verdict_ne_none {D : Type} (fs : List (ChangeStepFilterFunc D)) (v : StepPtr D)
    (h : ∀ f ∈ fs, (f v).isSome) : verdict fs v ≠ none := by
  induction fs with
  | nil => simp [verdict]
  | cons f fs ih =>
    have hf := h f (List.mem_cons_self f fs)
    cases hv : f v with
    | none => rw [hv] at hf; exact absurd hf (by simp)
    | some c =>
      cases c with
      | false => simp [verdict, hv]
      | true =>
        simp only [verdict, hv]
        exact ih (fun g hg => h g (List.mem_cons_of_mem f hg))

/-- The inner loop follows the calls of the filters: it panics when they do, runs through
the whole list when all return true, and stops before the end when one returns false. -/
lemma Values.scan_verdict {D : Type} (v : StepPtr D) (fs : List (ChangeStepFilterFunc D))
    (i : Nat) :
    (verdict fs v = none → Values.scan v fs i = none)
    ∧ (verdict fs v = some true → Values.scan v fs i = some (i + fs.length))
    ∧ (verdict fs v = some false → ∃ j, j < i + fs.length ∧ Values.scan v fs i = some j) := by
  induction fs generalizing i with
  | nil => simp [verdict, Values.scan]
  | cons f fs ih =>
    cases hf : f v with
    | none => simp [verdict, Values.scan, hf]
    | some c =>
      cases c with
      | false =>
        simp only [verdict, Values.scan, hf, reduceCtorEq, false_implies, true_and,
          Option.some.injEq, Bool.false_eq_true, List.length_cons, forall_const]
        exact ⟨i, by omega, rfl⟩
      | true =>
        obtain ⟨h1, h2, h3⟩ := ih (i + 1)
        simp only [verdict, Values.scan, hf, List.length_cons]
        refine ⟨h1, ?_, ?_⟩
        · intro h
          rw [h2 h]
          congr 1
          omega
        · intro h
          obtain ⟨j, hj, hs⟩ := h3 h
          exact ⟨j, by omega, hs⟩

/-- When no call of the filters panics on the pointers of the keys, the outer loop appends,
in key order, the pointers on which every filter returns true. -/
lemma Values.loop_verdict {D : Type} (o : ChangeOrder D) (fs : List (ChangeStepFilterFunc D))
    (keys : List String)
    (h : ∀ k ∈ keys, verdict fs (StepMap.index o.ChangeSteps k) ≠ none)
    (result : List (StepPtr D)) :
    Values.loop o fs keys result =
      some (result ++ (keys.map (StepMap.index o.ChangeSteps)).filter
        (fun v => fs.all (fun f => accepts f v))) := by
  induction keys generalizing result with
  | nil => simp [Values.loop]
  | cons k keys ih =>
    have hrest : ∀ k1 ∈ keys, verdict fs (StepMap.index o.ChangeSteps k1) ≠ none :=
      fun k1 hk1 => h k1 (List.mem_cons_of_mem k hk1)
    obtain ⟨-, h2, h3⟩ := Values.scan_verdict (StepMap.index o.ChangeSteps k) fs 0
    cases hv : verdict fs (StepMap.index o.ChangeSteps k) with
    | none => exact absurd hv (h k (List.mem_cons_self k keys))
    | some b =>
      have hall := verdict_eq_all fs _ b hv
      cases b with
      | true =>
        have hs := h2 hv
        simp only [Nat.zero_add] at hs
        simp only [Values.loop, hs, lt_self_iff_false, if_false]
        rw [ih hrest]
        simp [List.filter_cons, ← hall]
      | false =>
        obtain ⟨j, hj, hs⟩ := h3 hv
        simp only [Nat.zero_add] at hj
        simp only [Values.loop, hs, hj, if_true]
        rw [ih hrest]
        simp [List.filter_cons, ← hall]

/-- When a call of the filters panics on the pointer of one of the keys, the outer loop
panics. -/
lemma Values.loop_panics {D : Type} (o : ChangeOrder D) (fs : List (ChangeStepFilterFunc D))
    (keys : List String)
    (h : ∃ k ∈ keys, verdict fs (StepMap.index o.ChangeSteps k) = none)
    (result : List (StepPtr D)) :
    Values.loop o fs keys result = none := by
  induction keys generalizing result with
  | nil => simp at h
  | cons k keys ih =>
    obtain ⟨h1, -, -⟩ := Values.scan_verdict (StepMap.index o.ChangeSteps k) fs 0
    cases hv : verdict fs (StepMap.index o.ChangeSteps k) with
    | none => simp [Values.loop, h1 hv]
    | some b =>
      have hrest : ∃ k1 ∈ keys, verdict fs (StepMap.index o.ChangeSteps k1) = none := by
        obtain ⟨k1, hk1, hn⟩ := h
        rcases List.mem_cons.mp hk1 with rfl | hmem
        · rw [hv] at hn; exact Option.noConfusion hn
        · exact ⟨k1, hmem, hn⟩
      simp only [Values.loop]
      cases Values.scan (StepMap.index o.ChangeSteps k) fs 0 with
      | none => rfl
      | some j =>
        simp only
        split_ifs
        · exact ih hrest _
        · exact ih hrest _

/-- `Values` returns exactly when no call of the filters panics on a looked-up pointer, and
then it returns the pointers on which every filter returns true. -/
lemma Values_of_verdict {D : Type} (o : ChangeOrder D) (fs : List (ChangeStepFilterFunc D)) :
    ((∀ k ∈ o.StepKeys, verdict fs (o.Get k) ≠ none) →
      o.Values fs =
        some ((o.StepKeys.map o.Get).filter (fun v => fs.all (fun f => accepts f v))))
    ∧ ((∃ k ∈ o.StepKeys, verdict fs (o.Get k) = none) → o.Values fs = none) := by
  have hget : o.Get = StepMap.index o.ChangeSteps := rfl
  constructor
  · intro h
    have hl := Values.loop_verdict o fs o.StepKeys (by rw [← hget]; exact h) []
    rw [hget]
    simpa [ChangeOrder.Values] using hl
  · intro h
    exact Values.loop_panics o fs o.StepKeys (by rw [← hget]; exact h) []

/-- A value returned by `Values` is the list of the pointers on which every filter returns
true. -/
lemma Values_eq_some {D : Type} (o : ChangeOrder D) (fs : List (ChangeStepFilterFunc D))
    (r : List (StepPtr D)) (h : o.Values fs = some r) :
    r = (o.StepKeys.map o.Get).filter (fun v => fs.all (fun f => accepts f v)) := by
  by_cases hp : ∃ k ∈ o.StepKeys, verdict fs (o.Get k) = none
  · rw [(Values_of_verdict o fs).2 hp] at h
    exact Option.noConfusion h
  · have hall : ∀ k ∈ o.StepKeys, verdict fs (o.Get k) ≠ none :=
      fun k hk hn => hp ⟨k, hk, hn⟩
    rw [(Values_of_verdict o fs).1 hall] at h
    exact (Option.some.inj h).symm

/-- The conjunction "every filter returns true" does not depend on the order of the
filters. -/
lemma all_accepts_perm {D : Type} (fs gs : List (ChangeStepFilterFunc D)) (h : gs.Perm fs)
    (v : StepPtr D) : gs.all (fun f => accepts f v) = fs.all (fun f => accepts f v) := by
  rw [Bool.eq_iff_iff]
  simp only [List.all_eq_true]
  exact ⟨fun h1 p hp => h1 p (h.mem_iff.mpr hp), fun h1 p hp => h1 p (h.mem_iff.mp hp)⟩

/-- For filter closures whose outcome does not depend on the state, the inner loop stops
where it stops for their outcomes as filters without state, and leaves a state of the
invariant. -/
lemma Values.scanSt_outcome {D σ : Type} (v : StepPtr D) (fs : List (FilterClosure D σ))
    (I : σ → Prop) (s : σ)
    (hclosed : ∀ f ∈ fs, ∀ v t b t1, I t → f v t = some (b, t1) → I t1)
    (hconst : ∀ f ∈ fs, ∀ v t, I t → (f v t).map Prod.fst = (f v s).map Prod.fst)
    (i : Nat) (t : σ) (ht : I t) :
    (Values.scanSt v fs i t).map Prod.fst = Values.scan v (fs.map (outcome s)) i
    ∧ ∀ j t1, Values.scanSt v fs i t = some (j, t1) → I t1 := by
  induction fs generalizing i t with
  | nil =>
    refine ⟨rfl, ?_⟩
    intro j t1 h
    simp only [Values.scanSt, Option.some.injEq, Prod.mk.injEq] at h
    rw [← h.2]
    exact ht
  | cons f fs ih =>
    have hf : (f v t).map Prod.fst = (f v s).map Prod.fst :=
      hconst f (List.mem_cons_self f fs) v t ht
    have hc : ∀ g ∈ fs, ∀ v t b t1, I t → g v t = some (b, t1) → I t1 :=
      fun g hg => hclosed g (List.mem_cons_of_mem f hg)
    have hk : ∀ g ∈ fs, ∀ v t, I t → (g v t).map Prod.fst = (g v s).map Prod.fst :=
      fun g hg => hconst g (List.mem_cons_of_mem f hg)
    cases hft : f v t with
    | none =>
      rw [hft] at hf
      have hfs : f v s = none := by
        cases hs : f v s with
        | none => rfl
        | some x => rw [hs] at hf; exact Option.noConfusion hf
      simp [Values.scanSt, Values.scan, outcome, hft, hfs]
    | some x =>
      obtain ⟨b, t1⟩ := x
      have ht1 : I t1 := hclosed f (List.mem_cons_self f fs) v t b t1 ht hft
      rw [hft] at hf
      have hfs : outcome s f v = some b := by
        unfold outcome
        rw [← hf]
        rfl
      cases b with
      | false =>
        refine ⟨by simp [Values.scanSt, Values.scan, hft, hfs], ?_⟩
        intro j t2 h
        simp only [Values.scanSt, hft, Option.some.injEq, Prod.mk.injEq] at h
        rw [← h.2]
        exact ht1
      | true =>
        simp only [Values.scanSt, Values.scan, hft, List.map_cons, hfs]
        exact ih hc hk (i + 1) t1 ht1

/-- For filter closures whose outcome does not depend on the state, the outer loop builds
the slice that it builds for their outcomes as filters without state. -/
lemma Values.loopSt_outcome {D σ : Type} (o : ChangeOrder D) (fs : List (FilterClosure D σ))
    (I : σ → Prop) (s : σ)
    (hclosed : ∀ f ∈ fs, ∀ v t b t1, I t → f v t = some (b, t1) → I t1)
    (hconst : ∀ f ∈ fs, ∀ v t, I t → (f v t).map Prod.fst = (f v s).map Prod.fst)
    (keys : List String) (result : List (StepPtr D)) (t : σ) (ht : I t) :
    (Values.loopSt o fs keys result t).map Prod.fst =
      Values.loop o (fs.map (outcome s)) keys result := by
  induction keys generalizing result t with
  | nil => rfl
  | cons k keys ih =>
    obtain ⟨hscan, hinv⟩ :=
      Values.scanSt_outcome (StepMap.index o.ChangeSteps k) fs I s hclosed hconst 0 t ht
    cases hst : Values.scanSt (StepMap.index o.ChangeSteps k) fs 0 t with
    | none =>
      rw [hst] at hscan
      simp [Values.loopSt, Values.loop, hst, ← hscan]
    | some x =>
      obtain ⟨j, t1⟩ := x
      have ht1 : I t1 := hinv j t1 hst
      rw [hst] at hscan
      simp only [Option.map_some'] at hscan
      simp only [Values.loopSt, Values.loop, hst, ← hscan, List.length_map]
      split_ifs
      · exact ih result t1 ht1
      · exact ih _ t1 ht1

/-- For filter closures whose outcome does not depend on the state, `Values` returns the
slice that it returns for their outcomes as filters without state, and panics when it
panics for these. -/
lemma ValuesSt_outcome {D σ : Type} (o : ChangeOrder D) (fs : List (FilterClosure D σ))
    (I : σ → Prop) (s : σ) (hfree : StateFreeOn I s fs) :
    (o.ValuesSt fs s).map Prod.fst = o.Values (fs.map (outcome s)) :=
  Values.loopSt_outcome o fs I s hfree.2.1 hfree.2.2 o.StepKeys [] s hfree.1

/-- A slice returned by `Values` for filter closures whose outcome does not depend on the
state is the slice returned for their outcomes. -/
lemma ValuesSt_fst {D σ : Type} (o : ChangeOrder D) (fs : List (FilterClosure D σ))
    (I : σ → Prop) (s : σ) (hfree : StateFreeOn I s fs) (r : List (StepPtr D)) :
    (∃ s1, o.ValuesSt fs s = some (r, s1)) ↔ o.Values (fs.map (outcome s)) = some r := by
  rw [← ValuesSt_outcome o fs I s hfree]
  cases o.ValuesSt fs s with
  | none => simp
  | some x =>
    obtain ⟨r1, s1⟩ := x
    simp

/-- Closures among closures whose outcomes do not depend on the state have outcomes that
do not depend on the state. -/
lemma StateFreeOn.of_subset {D σ : Type} {I : σ → Prop} {s : σ}
    {fs gs : List (FilterClosure D σ)} (h : StateFreeOn I s fs) (hsub : ∀ g ∈ gs, g ∈ fs) :
    StateFreeOn I s gs :=
  ⟨h.1, fun g hg => h.2.1 g (hsub g hg), fun g hg => h.2.2 g (hsub g hg)⟩

/-- The conjunction over the outcomes of filter closures, closure by closure. -/
lemma all_map_outcome {D σ : Type} (fs : List (FilterClosure D σ)) (s : σ) (v : StepPtr D) :
    (fs.map (outcome s)).all (fun p => accepts p v) =
      fs.all (fun f => accepts (outcome s f) v) := by
  induction fs with
  | nil => rfl
  | cons f fs ih => simp only [List.map_cons, List.all_cons, ih]

/-- Filters without state, taken as closures, leave the inner loop in the state in which
it starts. -/
lemma Values.scanSt_stateless {D σ : Type} (v : StepPtr D)
    (ps : List (ChangeStepFilterFunc D)) (i : Nat) (s : σ) :
    Values.scanSt v (ps.map stateless) i s = (Values.scan v ps i).map (fun j => (j, s)) := by
  induction ps generalizing i with
  | nil => rfl
  | cons p ps ih =>
    cases hp : p v with
    | none => simp [Values.scanSt, Values.scan, stateless, hp]
    | some b =>
      cases b with
      | false => simp [Values.scanSt, Values.scan, stateless, hp]
      | true =>
        simp only [List.map_cons, Values.scanSt, Values.scan, stateless, hp, Option.map_some']
        exact ih (i + 1)

/-- Filters without state, taken as closures, give the slice of `Values` for filters
without state and leave the state as it is. -/
lemma Values.loopSt_stateless {D σ : Type} (o : ChangeOrder D)
    (ps : List (ChangeStepFilterFunc D)) (keys : List String) (result : List (StepPtr D))
    (s : σ) :
    Values.loopSt o (ps.map stateless) keys result s =
      (Values.loop o ps keys result).map (fun r => (r, s)) := by
  induction keys generalizing result with
  | nil => rfl
  | cons k keys ih =>
    simp only [Values.loopSt, Values.loop, Values.scanSt_stateless, List.length_map]
    cases Values.scan (StepMap.index o.ChangeSteps k) ps 0 with
    | none => rfl
    | some j =>
      simp only [Option.map_some']
      split_ifs
      · exact ih result
      · exact ih _

/-- C1 (as amended). For every ChangeOrder and every list of filters whose outcome on a
step pointer, the boolean returned or a panic, does not depend on the state that filters
keep or change, as far as their calls can change it, and which leave the ledger as it is:
if on every pointer looked up from `StepKeys` the filters, called in the order passed,
return true up to the first that returns false, so that no call made panics, then `Values`
is exactly the sequence obtained by visiting `StepKeys` in order, looking each key up in
`ChangeSteps`, and keeping the pointer if and only if every filter returns true on it, and
the kept steps stand in the relative order of their keys; otherwise `Values` panics.  Any
two orders of the filters on which `Values` returns give the same result, and `Values`
returns on every order when each filter returns on every looked-up pointer.  Whenever
`Values(f)`, `Values(g)` and `Values(f, g)` return, the steps kept under `f, g` are those
kept under `f` and under `g`, and the three calls return when `f` and `g` return on every
looked-up pointer.  For filters without state `Values` is the method of that name above,
and the state is left as it is. -/
theorem Values_filters_conjunctive {D σ : Type} (o : ChangeOrder D) (s : σ) :
    (∀ (fs : List (FilterClosure D σ)) (I : σ → Prop), StateFreeOn I s fs →
      ((∀ k ∈ o.StepKeys, verdict (fs.map (outcome s)) (o.Get k) ≠ none) →
        ∃ r s1, o.ValuesSt fs s = some (r, s1)
          ∧ r = (o.StepKeys.map o.Get).filter
              (fun v => fs.all (fun f => accepts (outcome s f) v))
          ∧ List.Sublist r (o.StepKeys.map o.Get))
      ∧ ((∃ k ∈ o.StepKeys, verdict (fs.map (outcome s)) (o.Get k) = none) →
          o.ValuesSt fs s = none)
      ∧ (∀ gs : List (FilterClosure D σ), gs.Perm fs → ∀ r1 r2 s1 s2,
          o.ValuesSt fs s = some (r1, s1) → o.ValuesSt gs s = some (r2, s2) → r1 = r2)
      ∧ (returnsOn o (fs.map (outcome s)) → ∀ gs : List (FilterClosure D σ), gs.Perm fs →
          ∃ r s1 s2, o.ValuesSt fs s = some (r, s1) ∧ o.ValuesSt gs s = some (r, s2)))
    ∧ (∀ (f g : FilterClosure D σ) (I : σ → Prop), StateFreeOn I s [f, g] →
        (∀ rfg rf rg s1 s2 s3, o.ValuesSt [f, g] s = some (rfg, s1) →
          o.ValuesSt [f] s = some (rf, s2) → o.ValuesSt [g] s = some (rg, s3) →
          ∀ v, v ∈ rfg ↔ v ∈ rf ∧ v ∈ rg)
        ∧ (returnsOn o [outcome s f, outcome s g] → ∃ rfg rf rg s1 s2 s3,
            o.ValuesSt [f, g] s = some (rfg, s1) ∧ o.ValuesSt [f] s = some (rf, s2) ∧
            o.ValuesSt [g] s = some (rg, s3)))
    ∧ (∀ ps : List (ChangeStepFilterFunc D),
        o.ValuesSt (ps.map stateless) s = (o.Values ps).map (fun r => (r, s))) := by
  have hret : ∀ (fs : List (FilterClosure D σ)) (I : σ → Prop), StateFreeOn I s fs →
      returnsOn o (fs.map (outcome s)) →
      ∃ s1, o.ValuesSt fs s = some ((o.StepKeys.map o.Get).filter
        (fun v => (fs.map (outcome s)).all (fun p => accepts p v)), s1) := by
    intro fs I hfree h
    rw [ValuesSt_fst o fs I s hfree]
    exact (Values_of_verdict o _).1 (fun k hk => verdict_ne_none _ _ (fun p hp => h p hp k hk))
  refine ⟨?_, ?_, ?_⟩
  · intro fs I hfree
    refine ⟨?_, ?_, ?_, ?_⟩
    · intro h
      have hv := (Values_of_verdict o (fs.map (outcome s))).1 h
      obtain ⟨s1, hs1⟩ := (ValuesSt_fst o fs I s hfree _).mpr hv
      refine ⟨_, s1, hs1, ?_, List.filter_sublist _⟩
      congr 1
      funext v
      exact all_map_outcome fs s v
    · intro h
      have hv := (Values_of_verdict o (fs.map (outcome s))).2 h
      have hm := ValuesSt_outcome o fs I s hfree
      rw [hv] at hm
      cases hst : o.ValuesSt fs s with
      | none => rfl
      | some x => rw [hst] at hm; exact Option.noConfusion hm
    · intro gs hperm r1 r2 s1 s2 h1 h2
      have hgfree : StateFreeOn I s gs := hfree.of_subset (fun g hg => hperm.mem_iff.mp hg)
      have e1 := Values_eq_some o _ r1 ((ValuesSt_fst o fs I s hfree r1).mp ⟨s1, h1⟩)
      have e2 := Values_eq_some o _ r2 ((ValuesSt_fst o gs I s hgfree r2).mp ⟨s2, h2⟩)
      rw [e1, e2]
      congr 1
      funext v
      exact (all_accepts_perm _ _ (hperm.map (outcome s)) v).symm
    · intro h gs hperm
      have hgfree : StateFreeOn I s gs := hfree.of_subset (fun g hg => hperm.mem_iff.mp hg)
      have hg : returnsOn o (gs.map (outcome s)) :=
        fun p hp => h p ((hperm.map (outcome s)).mem_iff.mp hp)
      obtain ⟨s1, hs1⟩ := hret fs I hfree h
      obtain ⟨s2, hs2⟩ := hret gs I hgfree hg
      have hsame : (o.StepKeys.map o.Get).filter
            (fun v => (gs.map (outcome s)).all (fun p => accepts p v)) =
          (o.StepKeys.map o.Get).filter
            (fun v => (fs.map (outcome s)).all (fun p => accepts p v)) := by
        congr 1
        funext v
        exact all_accepts_perm _ _ (hperm.map (outcome s)) v
      rw [hsame] at hs2
      exact ⟨_, s1, s2, hs1, hs2⟩
  · intro f g I hfg
    have hf1 : StateFreeOn I s [f] := hfg.of_subset (fun h hh => by
      rw [List.mem_singleton] at hh; subst hh; exact List.mem_cons_self _ _)
    have hg1 : StateFreeOn I s [g] := hfg.of_subset (fun h hh => by
      rw [List.mem_singleton] at hh; subst hh
      exact List.mem_cons_of_mem _ (List.mem_cons_self _ _))
    constructor
    · intro rfg rf rg s1 s2 s3 h1 h2 h3 v
      have e1 := Values_eq_some o _ rfg ((ValuesSt_fst o [f, g] I s hfg rfg).mp ⟨s1, h1⟩)
      have e2 := Values_eq_some o _ rf ((ValuesSt_fst o [f] I s hf1 rf).mp ⟨s2, h2⟩)
      have e3 := Values_eq_some o _ rg ((ValuesSt_fst o [g] I s hg1 rg).mp ⟨s3, h3⟩)
      rw [e1, e2, e3]
      simp only [List.map_cons, List.map_nil, List.mem_filter, List.all_cons, List.all_nil,
        Bool.and_true, Bool.and_eq_true]
      tauto
    · intro h
      have hrf : returnsOn o ([f].map (outcome s)) := fun p hp => h p (by
        simp only [List.map_cons, List.map_nil, List.mem_singleton] at hp
        subst hp
        exact List.mem_cons_self _ _)
      have hrg : returnsOn o ([g].map (outcome s)) := fun p hp => h p (by
        simp only [List.map_cons, List.map_nil, List.mem_singleton] at hp
        subst hp
        exact List.mem_cons_of_mem _ (List.mem_cons_self _ _))
      obtain ⟨s1, hs1⟩ := hret [f, g] I hfg h
      obtain ⟨s2, hs2⟩ := hret [f] I hf1 hrf
      obtain ⟨s3, hs3⟩ := hret [g] I hg1 hrg
      exact ⟨_, _, _, s1, s2, s3, hs1, hs2, hs3⟩
  · intro ps
    exact Values.loopSt_stateless o ps o.StepKeys [] s

/-- Filters without state, taken as closures, have outcomes that do not depend on the
state. -/
lemma stateFreeOn_stateless {D σ : Type} (ps : List (ChangeStepFilterFunc D)) (s : σ) :
    StateFreeOn (fun _ => True) s (ps.map (stateless : _ → FilterClosure D σ)) := by
  refine ⟨trivial, fun _ _ _ _ _ _ _ _ => trivial, ?_⟩
  intro f hf v t _
  obtain ⟨p, -, rfl⟩ := List.mem_map.mp hf
  unfold stateless
  cases p v <;> rfl

/-- The amended C1 at two ledgers.  On the ledger with the step `jack` and a key without
entry, the filter "pointer is not nil" passed before the predefined Create filter makes no
call that panics, and `Values` keeps `jack`.  On the sample ledger the predefined filters
for Create and Update return on every pointer, and `Values` returns under both and under
each; and the Create filter that counts its calls keeps `jack` and leaves the count 3. -/
theorem Values_filters_conjunctive_witness :
    (∀ k ∈ ghostKeyOrder.StepKeys,
      verdict ([stateless (returning Option.isSome), stateless CreateChangeStepFilter].map
        (outcome ())) (ghostKeyOrder.Get k) ≠ none) ∧
    ghostKeyOrder.ValuesSt
      [stateless (returning Option.isSome), stateless CreateChangeStepFilter] () =
      some ([some stepJack], ()) ∧
    returnsOn sampleOrder [outcome () (stateless CreateChangeStepFilter),
      outcome () (stateless UpdateChangeStepFilter)] ∧
    (∃ rfg rf rg s1 s2 s3,
      sampleOrder.ValuesSt [stateless CreateChangeStepFilter,
        stateless UpdateChangeStepFilter] () = some (rfg, s1) ∧
      sampleOrder.ValuesSt [stateless CreateChangeStepFilter] () = some (rf, s2) ∧
      sampleOrder.ValuesSt [stateless UpdateChangeStepFilter] () = some (rg, s3)) ∧
    StateFreeOn (fun _ => True) 0 [countingCreate] ∧
    sampleOrder.ValuesSt [countingCreate] 0 = some ([some stepJack], 3) := by
  have hcount : StateFreeOn (fun _ => True) 0 [countingCreate] := by
    refine ⟨trivial, fun _ _ _ _ _ _ _ _ => trivial, ?_⟩
    intro f hf v t _
    rw [List.mem_singleton] at hf
    subst hf
    unfold countingCreate
    cases CreateChangeStepFilter v <;> rfl
  have hfree : StateFreeOn (fun _ => True) ()
      [(stateless (returning Option.isSome) : FilterClosure Unit Unit),
        stateless CreateChangeStepFilter] :=
    stateFreeOn_stateless [returning Option.isSome, CreateChangeStepFilter] ()
  have hverdict : ∀ k ∈ ghostKeyOrder.StepKeys,
      verdict ([stateless (returning Option.isSome), stateless CreateChangeStepFilter].map
        (outcome ())) (ghostKeyOrder.Get k) ≠ none := by decide
  have hreturns : returnsOn sampleOrder [outcome () (stateless CreateChangeStepFilter),
      outcome () (stateless UpdateChangeStepFilter)] := by decide
  refine ⟨hverdict, ?_, hreturns, ?_, hcount, ?_⟩
  · obtain ⟨r, s1, h, hr, -⟩ :=
      ((Values_filters_conjunctive ghostKeyOrder ()).1 _ _ hfree).1 hverdict
    rw [h, hr]
    rfl
  · exact ((Values_filters_conjunctive sampleOrder ()).2.1 _ _ _
      (stateFreeOn_stateless [CreateChangeStepFilter, UpdateChangeStepFilter] ())).2 hreturns
  · obtain ⟨r, s1, h, hr, -⟩ :=
      ((Values_filters_conjunctive sampleOrder 0).1 _ _ hcount).1 (by decide)
    have hs : (sampleOrder.ValuesSt [countingCreate] 0).map Prod.snd = some 3 := rfl
    rw [h] at hs
    simp only [Option.map_some', Option.some.injEq] at hs
    rw [h, hr, hs]
    rfl

/-- C1 fails as stated.  A filter that keeps state: on the ledger of the steps `a` and
`b`, with `f` the filter "the ID is not `a`" and `g` a filter that returns true on its
first call only, neither of which panics, `Values(f, g)` keeps `b`, while `Values(f)`
keeps `b` and `Values(g)` keeps `a`, and `Values(g, f)` keeps nothing.  A filter that
writes through the pointer: with `w` rewriting the action to Delete and `d` the Delete
filter, `Values(w, d)` keeps both steps, while `Values(d)` and `Values(d, w)` keep
nothing.  A filter that panics: on a ledger whose step key has no entry in the map, or stores nil, `Values` with
the predefined Create filter panics, where the claim has the empty sequence (no filter
returns true on the nil pointer); and with the filter "pointer is not nil" passed before
the Create filter the result is the empty list, but with the two passed in the other
order the call panics. -/
theorem Values_filters_not_conjunctive :
    abOrder.ValuesSt [notA, firstCallOnly] 0 = some ([some ⟨"b", .Create, (), ()⟩], 1) ∧
    abOrder.ValuesSt [notA] 0 = some ([some ⟨"b", .Create, (), ()⟩], 0) ∧
    abOrder.ValuesSt [firstCallOnly] 0 = some ([some ⟨"a", .Create, (), ()⟩], 2) ∧
    abOrder.ValuesSt [firstCallOnly, notA] 0 = some ([], 2) ∧
    abOrder.ValuesSt [rewriteToDelete, readsDelete] [] =
      some ([some ⟨"a", .Create, (), ()⟩, some ⟨"b", .Create, (), ()⟩], ["b", "a"]) ∧
    abOrder.ValuesSt [readsDelete] [] = some ([], []) ∧
    abOrder.ValuesSt [readsDelete, rewriteToDelete] [] = some ([], []) ∧
    (danglingOrder Unit).Values [CreateChangeStepFilter] = none ∧
    (nilStoredOrder Unit).Values [CreateChangeStepFilter] = none ∧
    ((danglingOrder Unit).StepKeys.map (danglingOrder Unit).Get).filter
        (fun v => [CreateChangeStepFilter].all (fun f => accepts f v)) = [] ∧
    (danglingOrder Unit).Values [returning Option.isSome, CreateChangeStepFilter] = some [] ∧
    (danglingOrder Unit).Values [CreateChangeStepFilter, returning Option.isSome] = none :=
  ⟨rfl, rfl, rfl, rfl, rfl, rfl, rfl, rfl, rfl, rfl, rfl, rfl⟩

/-! ## Values without filters, and Get -/

/-- Indexing the map at a key of the map returns what is stored there. -/
lemma StepMap.index_of_lookup {D : Type} (m : StepMap D) (k : String) (v : StepPtr D)
    (h : m.lookup k = some v) : StepMap.index m k = v := by
  simp [StepMap.index, h]

/-- Indexing the map at a key that is absent returns nil. -/
lemma StepMap.index_of_not_mem {D : Type} (m : StepMap D) (k : String)
    (h : k ∉ m.keys) : StepMap.index m k = none := by
  have : m.lookup k = none := AList.lookup_eq_none.mpr (fun hk => h (AList.mem_keys.mp hk))
  simp [StepMap.index, this]

/-- Indexing the map yields nil exactly when the key is absent or stores nil. -/
lemma StepMap.index_eq_none_iff {D : Type} (m : StepMap D) (k : String) :
    StepMap.index m k = none ↔ k ∉ m.keys ∨ m.lookup k = some none := by
  constructor
  · intro h
    cases hl : m.lookup k with
    | none =>
      left
      intro hk
      exact (AList.lookup_eq_none.mp hl) (AList.mem_keys.mpr hk)
    | some v =>
      right
      simp only [StepMap.index, hl] at h
      rw [h]
  · rintro (h | h)
    · exact StepMap.index_of_not_mem m k h
    · exact StepMap.index_of_lookup m k none h

/-- Under the ledger invariant the step keys are a rearrangement of the map keys. -/
lemma LedgerInvariant.perm_keys {D : Type} {o : ChangeOrder D} (h : LedgerInvariant o) :
    o.StepKeys.Perm o.ChangeSteps.keys :=
  List.perm_of_nodup_nodup_toFinset_eq h.1 o.ChangeSteps.keys_nodup h.2

/-- Membership in the step keys and in the map keys agree when the two key sets are
equal. -/
lemma mem_stepKeys_iff {D : Type} {o : ChangeOrder D}
    (h : o.StepKeys.toFinset = o.ChangeSteps.keys.toFinset) (k : String) :
    k ∈ o.StepKeys ↔ k ∈ o.ChangeSteps.keys := by
  rw [← List.mem_toFinset, h, List.mem_toFinset]

/-- C2 (as amended). Under the ledger invariant, `Values()` without filters returns a
list of length `len(StepKeys)`, which is the number of entries of `ChangeSteps`; its
i-th element is `ChangeSteps[StepKeys[i]]`; every entry of the map appears at exactly
one position, the position of its key; an element is nil exactly when nil is what the
map stores under its key, so no element is nil when the map stores no nil pointer. -/
theorem Values_no_filter_ledger {D : Type} (o : ChangeOrder D) (h : LedgerInvariant o) :
    ∃ r, o.Values [] = some r
      ∧ r.length = o.StepKeys.length
      ∧ o.StepKeys.length = o.ChangeSteps.entries.length
      ∧ (∀ (i : Nat) (k : String), o.StepKeys[i]? = some k →
          r[i]? = some (StepMap.index o.ChangeSteps k))
      ∧ (∀ k v, o.ChangeSteps.lookup k = some v →
          ∃! i : Nat, o.StepKeys[i]? = some k ∧ r[i]? = some v)
      ∧ (∀ i : Nat, r[i]? = some none ↔
          ∃ k, o.StepKeys[i]? = some k ∧ o.ChangeSteps.lookup k = some none)
      ∧ ((∀ k, o.ChangeSteps.lookup k ≠ some none) → ∀ v ∈ r, v ≠ none) := by
  have hidx : ∀ (i : Nat) (k : String), o.StepKeys[i]? = some k →
      (o.StepKeys.map o.Get)[i]? = some (StepMap.index o.ChangeSteps k) := by
    intro i k hik
    simp [List.getElem?_map, hik, ChangeOrder.Get]
  have hmem : ∀ (i : Nat) (k : String), o.StepKeys[i]? = some k → k ∈ o.ChangeSteps.keys := fun i k hik =>
    (mem_stepKeys_iff h.2 k).mp (List.mem_iff_getElem?.mpr ⟨i, hik⟩)
  have hnil : ∀ i : Nat, (o.StepKeys.map o.Get)[i]? = some none ↔
      ∃ k, o.StepKeys[i]? = some k ∧ o.ChangeSteps.lookup k = some none := by
    intro i
    constructor
    · intro hi
      cases hk : o.StepKeys[i]? with
      | none => simp [List.getElem?_map, hk] at hi
      | some k =>
        refine ⟨k, rfl, ?_⟩
        rw [hidx i k hk] at hi
        have hnone : StepMap.index o.ChangeSteps k = none := Option.some.inj hi
        rcases (StepMap.index_eq_none_iff _ _).mp hnone with hn | hs
        · exact absurd (hmem i k hk) hn
        · exact hs
    · rintro ⟨k, hk, hs⟩
      rw [hidx i k hk, StepMap.index_of_lookup _ _ _ hs]
  refine ⟨o.StepKeys.map o.Get, Values_nil o, by simp, ?_, hidx, ?_, hnil, ?_⟩
  · rw [h.perm_keys.length_eq, AList.keys, List.keys, List.length_map]
  · intro k v hkv
    have hk : k ∈ o.ChangeSteps.keys :=
      AList.mem_keys.mp (AList.lookup_isSome.mp (by simp [hkv]))
    obtain ⟨i, hi⟩ := List.mem_iff_getElem?.mp ((mem_stepKeys_iff h.2 k).mpr hk)
    refine ⟨i, ⟨hi, ?_⟩, ?_⟩
    · rw [hidx i k hi, StepMap.index_of_lookup _ _ _ hkv]
    · rintro j ⟨hj, -⟩
      have hjlt : j < o.StepKeys.length := by
        by_contra hge
        rw [List.getElem?_eq_none (by omega)] at hj
        exact Option.noConfusion hj
      exact List.getElem?_inj hjlt h.1 (hj.trans hi.symm)
  · intro hstored v hv hvn
    subst hvn
    obtain ⟨i, hi⟩ := List.mem_iff_getElem?.mp hv
    obtain ⟨k, -, hs⟩ := (hnil i).mp hi
    exact hstored k hs

/-- The sample ledger satisfies the ledger invariant, and the amended C2 holds of it. -/
theorem Values_no_filter_ledger_witness :
    LedgerInvariant sampleOrder ∧
    ∃ r, sampleOrder.Values [] = some r
      ∧ r.length = sampleOrder.StepKeys.length
      ∧ sampleOrder.StepKeys.length = sampleOrder.ChangeSteps.entries.length
      ∧ (∀ (i : Nat) (k : String), sampleOrder.StepKeys[i]? = some k →
          r[i]? = some (StepMap.index sampleOrder.ChangeSteps k))
      ∧ (∀ k v, sampleOrder.ChangeSteps.lookup k = some v →
          ∃! i : Nat, sampleOrder.StepKeys[i]? = some k ∧ r[i]? = some v)
      ∧ (∀ i : Nat, r[i]? = some none ↔
          ∃ k, sampleOrder.StepKeys[i]? = some k ∧ sampleOrder.ChangeSteps.lookup k = some none)
      ∧ ((∀ k, sampleOrder.ChangeSteps.lookup k ≠ some none) → ∀ v ∈ r, v ≠ none) :=
  ⟨by decide, Values_no_filter_ledger sampleOrder (by decide)⟩

/-- C2 fails as stated: a ledger whose single key stores the nil pointer satisfies the
ledger invariant, yet `Values()` returns a list with a nil element. -/
theorem Values_no_filter_nil_element :
    LedgerInvariant (nilStoredOrder Unit) ∧ (nilStoredOrder Unit).Values [] = some [none] ∧
    ¬ (∀ r, (nilStoredOrder Unit).Values [] = some r → ∀ v ∈ r, v ≠ none) := by
  refine ⟨by decide, rfl, ?_⟩
  intro hall
  exact hall [none] rfl none (List.mem_singleton.mpr rfl) rfl

/-- C5 (as amended). `Get(k)` returns the pointer stored in `ChangeSteps` under `k`, and
nil when `k` is not a key of the map.  When the step keys and the map keys are the same
set, `Get(k)` is non-nil exactly when `k` occurs in `StepKeys` and the pointer stored
under `k` is not nil.  A pointer is returned by `Values()` if and only if it is `Get(k)`
for some `k` in `StepKeys`. -/
theorem Get_lookup {D : Type} (o : ChangeOrder D) (k : String) :
    (∀ v, o.ChangeSteps.lookup k = some v → o.Get k = v)
    ∧ (k ∉ o.ChangeSteps.keys → o.Get k = none)
    ∧ (o.StepKeys.toFinset = o.ChangeSteps.keys.toFinset →
        (o.Get k ≠ none ↔ k ∈ o.StepKeys ∧ o.ChangeSteps.lookup k ≠ some none))
    ∧ (∃ r, o.Values [] = some r ∧ ∀ v, v ∈ r ↔ ∃ k1 ∈ o.StepKeys, v = o.Get k1) := by
  refine ⟨fun v hv => StepMap.index_of_lookup _ _ _ hv,
    fun hk => StepMap.index_of_not_mem _ _ hk, ?_, ?_⟩
  · intro hset
    unfold ChangeOrder.Get
    rw [Ne, StepMap.index_eq_none_iff, mem_stepKeys_iff hset]
    tauto
  · refine ⟨_, Values_nil o, ?_⟩
    intro v
    simp only [List.mem_map]
    constructor
    · rintro ⟨k1, hk1, rfl⟩
      exact ⟨k1, hk1, rfl⟩
    · rintro ⟨k1, hk1, rfl⟩
      exact ⟨k1, hk1, rfl⟩

/-- The sample ledger has equal key sets, and the amended C5 holds of it at key `pony`. -/
theorem Get_lookup_witness :
    sampleOrder.StepKeys.toFinset = sampleOrder.ChangeSteps.keys.toFinset ∧
    (sampleOrder.Get "pony" ≠ none ↔
      "pony" ∈ sampleOrder.StepKeys ∧ sampleOrder.ChangeSteps.lookup "pony" ≠ some none) :=
  ⟨by decide, (Get_lookup sampleOrder "pony").2.2.1 (by decide)⟩

/-- C5 fails as stated: in a ledger whose key set equals its step keys, `Get` can be nil
at a key that occurs in `StepKeys`, namely when nil is stored under that key. -/
theorem Get_nil_at_step_key :
    (nilStoredOrder Unit).StepKeys.toFinset = (nilStoredOrder Unit).ChangeSteps.keys.toFinset ∧
    "a" ∈ (nilStoredOrder Unit).StepKeys ∧ (nilStoredOrder Unit).Get "a" = none ∧
    ¬ ((nilStoredOrder Unit).Get "a" ≠ none ↔ "a" ∈ (nilStoredOrder Unit).StepKeys) := by
  refine ⟨by decide, by decide, rfl, ?_⟩
  intro hiff
  exact hiff.mpr (by decide) rfl

/-! ## The predefined filters -/

/-- On a ledger all of whose step keys lead to a non-nil pointer, `Values` with filters
that test the action of a non-nil pointer is the filter by the conjunction of these
tests. -/
lemma Values_action_filters {D : Type} (o : ChangeOrder D)
    (hnn : ∀ k ∈ o.StepKeys, o.Get k ≠ none)
    (fs : List (ChangeStepFilterFunc D)) (as : List ActionType)
    (hfs : List.Forall₂ (fun f a => ∀ c : ChangeStep D, f (some c) = some (hasAction a (some c)))
      fs as) :
    o.Values fs = some ((o.StepKeys.map o.Get).filter
      (fun v => as.all (fun a => hasAction a v))) := by
  have hget : o.Get = StepMap.index o.ChangeSteps := rfl
  have hall : ∀ v : StepPtr D,
      (as.map hasAction).all (fun p => p v) = as.all (fun a => hasAction a v) := by
    intro v
    clear hfs
    induction as with
    | nil => rfl
    | cons a as ih => simp only [List.map_cons, List.all_cons, ih]
  have h := Values.loop_spec o fs (as.map hasAction) o.StepKeys ?_ []
  · simp only [hall, List.nil_append] at h
    rw [hget]
    exact h
  · intro k hk
    have hne := hnn k hk
    unfold ChangeOrder.Get at hne
    obtain ⟨c, hc⟩ := Option.ne_none_iff_exists'.mp hne
    rw [hc]
    clear hne hc hall
    induction hfs with
    | nil => exact List.Forall₂.nil
    | cons hfa _ ih => exact List.Forall₂.cons (hfa c) ih

/-- Two distinct actions are never both the action of one pointer. -/
lemma hasAction_disjoint {D : Type} (a b : ActionType) (hab : a ≠ b) (v : StepPtr D) :
    (hasAction a v && hasAction b v) = false := by
  cases v with
  | none => rfl
  | some c =>
    by_cases h : c.Action = a
    · have : c.Action ≠ b := fun hb => hab (h.symm.trans hb)
      simp [hasAction, this]
    · simp [hasAction, h]

/-- On a ledger without nil pointers, two filters testing for distinct actions keep
nothing. -/
lemma Values_two_actions {D : Type} (o : ChangeOrder D)
    (hnn : ∀ k ∈ o.StepKeys, o.Get k ≠ none)
    (f g : ChangeStepFilterFunc D) (a b : ActionType) (hab : a ≠ b)
    (hf : ∀ c : ChangeStep D, f (some c) = some (hasAction a (some c)))
    (hg : ∀ c : ChangeStep D, g (some c) = some (hasAction b (some c))) :
    o.Values [f, g] = some [] := by
  rw [Values_action_filters o hnn [f, g] [a, b]
    (List.Forall₂.cons hf (List.Forall₂.cons hg List.Forall₂.nil))]
  simp only [List.all_cons, List.all_nil, Bool.and_true, Option.some.injEq,
    List.filter_eq_nil_iff]
  intro v _
  simp [hasAction_disjoint a b hab v]

/-- In a list of non-nil pointers, the steps with action Create, Update, Delete and
UnChange together are the classified steps. -/
lemma count_by_action {D : Type} (l : List (StepPtr D)) :
    (l.filter (hasAction ActionType.Create)).length
      + (l.filter (hasAction ActionType.Update)).length
      + (l.filter (hasAction ActionType.Delete)).length
      + (l.filter (hasAction ActionType.UnChange)).length
      = l.countP isClassified := by
  induction l with
  | nil => rfl
  | cons v l ih =>
    cases v with
    | none => simpa [hasAction, isClassified, List.filter_cons] using ih
    | some c =>
      rcases c with ⟨id, act, old, new⟩
      cases act <;> simp [hasAction, isClassified, List.filter_cons, List.countP_cons] <;> omega

/-- C8 (as amended). For every ChangeStep at most one of the four predefined filters
returns true, and exactly one does if and only if the action is not `Undefined`.
For every ChangeOrder whose step keys all lead to a non-nil step, `Values` with two
different predefined filters is empty, and the lengths of `Values` under each of the
four filters add up to the number of steps of `Values()` whose action is not
`Undefined`. -/
theorem predefined_filters_partition {D : Type} :
    (∀ c : ChangeStep D,
      (predefinedFilters.countP (fun f => decide (f (some c) = some true)) ≤ 1)
      ∧ (predefinedFilters.countP (fun f => decide (f (some c) = some true)) = 1 ↔
          c.Action ≠ ActionType.Undefined))
    ∧ (∀ o : ChangeOrder D, (∀ k ∈ o.StepKeys, o.Get k ≠ none) →
        List.Pairwise (fun f g => o.Values [f, g] = some [] ∧ o.Values [g, f] = some [])
          predefinedFilters
        ∧ ∃ rc ru rd rn all,
            o.Values [CreateChangeStepFilter] = some rc ∧
            o.Values [UpdateChangeStepFilter] = some ru ∧
            o.Values [DeleteChangeStepFilter] = some rd ∧
            o.Values [UnChangeChangeStepFilter] = some rn ∧
            o.Values [] = some all ∧
            rc.length + ru.length + rd.length + rn.length = all.countP isClassified) := by
  have hC : ∀ c : ChangeStep D, CreateChangeStepFilter (some c) =
      some (hasAction ActionType.Create (some c)) := fun _ => rfl
  have hU : ∀ c : ChangeStep D, UpdateChangeStepFilter (some c) =
      some (hasAction ActionType.Update (some c)) := fun _ => rfl
  have hD : ∀ c : ChangeStep D, DeleteChangeStepFilter (some c) =
      some (hasAction ActionType.Delete (some c)) := fun _ => rfl
  have hN : ∀ c : ChangeStep D, UnChangeChangeStepFilter (some c) =
      some (hasAction ActionType.UnChange (some c)) := fun _ => rfl
  constructor
  · rintro ⟨id, act, old, new⟩
    cases act <;>
      simp [predefinedFilters, CreateChangeStepFilter, UpdateChangeStepFilter,
        DeleteChangeStepFilter, UnChangeChangeStepFilter, List.countP_cons]
  · intro o hnn
    constructor
    · simp only [predefinedFilters, List.pairwise_cons, List.mem_cons, List.mem_singleton,
        List.not_mem_nil, forall_eq_or_imp, forall_eq, IsEmpty.forall_iff, implies_true,
        List.Pairwise.nil, and_true]
      refine ⟨⟨⟨?_, ?_⟩, ⟨?_, ?_⟩, ⟨?_, ?_⟩⟩, ⟨⟨?_, ?_⟩, ⟨?_, ?_⟩⟩, ⟨?_, ?_⟩⟩
      · exact Values_two_actions o hnn _ _ _ _ (by decide) hC hU
      · exact Values_two_actions o hnn _ _ _ _ (by decide) hU hC
      · exact Values_two_actions o hnn _ _ _ _ (by decide) hC hD
      · exact Values_two_actions o hnn _ _ _ _ (by decide) hD hC
      · exact Values_two_actions o hnn _ _ _ _ (by decide) hC hN
      · exact Values_two_actions o hnn _ _ _ _ (by decide) hN hC
      · exact Values_two_actions o hnn _ _ _ _ (by decide) hU hD
      · exact Values_two_actions o hnn _ _ _ _ (by decide) hD hU
      · exact Values_two_actions o hnn _ _ _ _ (by decide) hU hN
      · exact Values_two_actions o hnn _ _ _ _ (by decide) hN hU
      · exact Values_two_actions o hnn _ _ _ _ (by decide) hD hN
      · exact Values_two_actions o hnn _ _ _ _ (by decide) hN hD
    · refine ⟨_, _, _, _, _,
        Values_action_filters o hnn [_] [ActionType.Create] (List.Forall₂.cons hC .nil),
        Values_action_filters o hnn [_] [ActionType.Update] (List.Forall₂.cons hU .nil),
        Values_action_filters o hnn [_] [ActionType.Delete] (List.Forall₂.cons hD .nil),
        Values_action_filters o hnn [_] [ActionType.UnChange] (List.Forall₂.cons hN .nil),
        Values_nil o, ?_⟩
      simpa using count_by_action (o.StepKeys.map o.Get)

/-- Every step key of the sample ledger leads to a non-nil step, and the second part of
the amended C8 holds of it. -/
theorem predefined_filters_partition_witness :
    (∀ k ∈ sampleOrder.StepKeys, sampleOrder.Get k ≠ none) ∧
    (List.Pairwise
        (fun f g => sampleOrder.Values [f, g] = some [] ∧ sampleOrder.Values [g, f] = some [])
        predefinedFilters
      ∧ ∃ rc ru rd rn all,
          sampleOrder.Values [CreateChangeStepFilter] = some rc ∧
          sampleOrder.Values [UpdateChangeStepFilter] = some ru ∧
          sampleOrder.Values [DeleteChangeStepFilter] = some rd ∧
          sampleOrder.Values [UnChangeChangeStepFilter] = some rn ∧
          sampleOrder.Values [] = some all ∧
          rc.length + ru.length + rd.length + rn.length = all.countP isClassified) :=
  ⟨by decide, predefined_filters_partition.2 sampleOrder (by decide)⟩

/-- C8 fails as stated: on a ledger whose step key has no entry in the map, `Values`
with two different predefined filters does not return the empty list; the first filter
dereferences the nil pointer and the call panics.  The same happens when nil is stored
under the key. -/
theorem Values_predefined_nil_panics :
    (danglingOrder Unit).Values [CreateChangeStepFilter, UpdateChangeStepFilter] = none ∧
    (danglingOrder Unit).Values [CreateChangeStepFilter, UpdateChangeStepFilter] ≠ some [] ∧
    (nilStoredOrder Unit).Values [CreateChangeStepFilter, UpdateChangeStepFilter] = none := by
  refine ⟨rfl, ?_, rfl⟩
  intro h
  have h2 : (none : Option (List (StepPtr Unit))) = some [] := h
  exact Option.noConfusion h2

/-! ## Diff and Diffs -/

/-- A string has length zero exactly when it is the empty string. -/
lemma length_eq_zero_iff (s : String) : s.length = 0 ↔ s = "" := by
  constructor
  · intro h
    exact String.ext (List.length_eq_zero.mp h)
  · rintro rfl
    rfl

/-- C9 (as amended). For every ChangeStep whose diff report is computed without error,
with report string `r`, `Diff()` returns with a nil error the concatenation of: the label
`ID: ` in the style `GreenBold` and the ID with a newline in the style `Green`, if and only
if the ID is non-empty; the label `Plan: ` in the style `GreenBold` and the pretty action
with a newline as `pterm.Sprintf` renders it, if and only if the action is not
`Undefined`; the label `Diff: ` in the style `GreenBold`; then the marker `<EMPTY>` in the
style `Gray` if and only if `r` trimmed of white space is empty and the action is
`UnChange`, and otherwise a newline followed by the trimmed `r`; then a final newline.
The result is the plain text of the pieces when the styles and `pterm.Sprintf` leave the
text they are given unchanged.  When the report computation or its conversion to a string
fails, `Diff()` returns the empty string together with that error. -/
theorem Diff_layout {D F R : Type} (E : DiffDeps D F R) (cs : ChangeStep D) :
    (∀ rep r, diffToReport E cs.Old cs.New = .ok rep → E.ToReportString rep = .ok r →
      cs.Diff E =
        ((if cs.ID ≠ "" then E.GreenBold "ID: " ++ E.Green (cs.ID ++ "\n") else "")
          ++ ((if cs.Action ≠ ActionType.Undefined then
                E.GreenBold "Plan: " ++ E.Sprintf (E.PrettyString cs.Action ++ "\n") else "")
          ++ (E.GreenBold "Diff: "
          ++ ((if TrimSpace r = "" ∧ cs.Action = ActionType.UnChange then E.Gray "<EMPTY>"
                else "\n" ++ TrimSpace r)
          ++ "\n"))), none)
      ∧ ((∀ s, E.GreenBold s = s) → (∀ s, E.Green s = s) → (∀ s, E.Gray s = s) →
          (∀ s, E.Sprintf s = s) →
          cs.Diff E =
            ((if cs.ID ≠ "" then "ID: " ++ (cs.ID ++ "\n") else "")
              ++ ((if cs.Action ≠ ActionType.Undefined then
                    "Plan: " ++ (E.PrettyString cs.Action ++ "\n") else "")
              ++ ("Diff: "
              ++ ((if TrimSpace r = "" ∧ cs.Action = ActionType.UnChange then "<EMPTY>"
                    else "\n" ++ TrimSpace r)
              ++ "\n"))), none)))
    ∧ (∀ err, diffToReport E cs.Old cs.New = .error err → cs.Diff E = ("", some err))
    ∧ (∀ rep err, diffToReport E cs.Old cs.New = .ok rep →
        E.ToReportString rep = .error err → cs.Diff E = ("", some err)) := by
  refine ⟨?_, ?_, ?_⟩
  · intro rep r h1 h2
    have hmain : cs.Diff E =
        ((if cs.ID ≠ "" then E.GreenBold "ID: " ++ E.Green (cs.ID ++ "\n") else "")
          ++ ((if cs.Action ≠ ActionType.Undefined then
                E.GreenBold "Plan: " ++ E.Sprintf (E.PrettyString cs.Action ++ "\n") else "")
          ++ (E.GreenBold "Diff: "
          ++ ((if TrimSpace r = "" ∧ cs.Action = ActionType.UnChange then E.Gray "<EMPTY>"
                else "\n" ++ TrimSpace r)
          ++ "\n"))), none) := by
      have hid : cs.ID.length ≠ 0 ↔ cs.ID ≠ "" := not_congr (length_eq_zero_iff cs.ID)
      simp only [ChangeStep.Diff, h1, h2, length_eq_zero_iff, hid]
      split_ifs <;> simp [String.append_assoc]
    refine ⟨hmain, ?_⟩
    intro hgb hg hgr hsp
    rw [hmain]
    simp only [hgb, hg, hgr, hsp]
  · intro err h1
    simp [ChangeStep.Diff, h1]
  · intro rep err h1 h2
    simp [ChangeStep.Diff, h1, h2]

/-- The amended C9 at a sample step: an update of `jack` from `a: b` to `a: c`, rendered
with the styles switched on; each label and the ID carry the escape sequences of their
style. -/
theorem Diff_layout_witness :
    diffToReport ansiDeps "a: b" "a: c" = .ok "- a: b\n+ a: c\n" ∧
    ansiDeps.ToReportString "- a: b\n+ a: c\n" = .ok "- a: b\n+ a: c\n" ∧
    ChangeStep.Diff ansiDeps ⟨"jack", .Update, "a: b", "a: c"⟩ =
      ("\x1b[32;1mID: \x1b[0m\x1b[32mjack\n\x1b[0m\x1b[32;1mPlan: \x1b[0mUpdate\n" ++
        "\x1b[32;1mDiff: \x1b[0m\n- a: b\n+ a: c\n", none) := by
  refine ⟨rfl, rfl, ?_⟩
  have h := ((Diff_layout ansiDeps ⟨"jack", .Update, "a: b", "a: c"⟩).1
    "- a: b\n+ a: c\n" "- a: b\n+ a: c\n" rfl rfl).1
  rw [h]
  rfl

/-- C9 fails as stated: with the styles switched on, `Diff()` of the sample step does not
return the plain concatenation `ID: jack`, `Plan: Update`, `Diff: ` and the report; the
labels and the ID are wrapped in the escape sequences of their styles. -/
theorem Diff_styled_not_plain :
    diffToReport ansiDeps "a: b" "a: c" = .ok "- a: b\n+ a: c\n" ∧
    ansiDeps.ToReportString "- a: b\n+ a: c\n" = .ok "- a: b\n+ a: c\n" ∧
    ChangeStep.Diff ansiDeps ⟨"jack", .Update, "a: b", "a: c"⟩ ≠
      ("ID: " ++ "jack" ++ "\n" ++ "Plan: " ++ ansiDeps.PrettyString .Update ++ "\n" ++
        "Diff: " ++ "\n" ++ TrimSpace "- a: b\n+ a: c\n" ++ "\n", none) := by
  refine ⟨rfl, rfl, ?_⟩
  decide

/-- Folding string concatenation from an accumulator is the accumulator followed by the
join. -/
lemma foldl_append_eq (l : List String) (acc : String) :
    l.foldl (fun r s => r ++ s) acc = acc ++ String.join l := by
  induction l generalizing acc with
  | nil => simp [String.join]
  | cons a l ih =>
    simp only [String.join, List.foldl_cons] at ih ⊢
    rw [ih (acc ++ a), ih ("" ++ a), String.empty_append, String.append_assoc]

/-- The join of a non-empty list of strings. -/
lemma join_cons (a : String) (l : List String) : String.join (a :: l) = a ++ String.join l := by
  have h := foldl_append_eq l a
  simpa [String.join] using h

/-- The loop of `Diffs` over keys that store the steps `steps` appends the contribution
of each step in order. -/
lemma Diffs.loop_concat {D F R : Type} (E : DiffDeps D F R) (o : ChangeOrder D)
    (keys : List String) (steps : List (ChangeStep D))
    (h : keys.map (StepMap.index o.ChangeSteps) = steps.map some) (buf : String) :
    Diffs.loop E o keys buf = some (buf ++ String.join (steps.map (contribution E))) := by
  induction keys generalizing steps buf with
  | nil =>
    cases steps with
    | nil => simp [Diffs.loop, String.join]
    | cons s steps => simp at h
  | cons k keys ih =>
    cases steps with
    | nil => simp at h
    | cons s steps =>
      simp only [List.map_cons, List.cons.injEq] at h
      obtain ⟨hk, hrest⟩ := h
      simp only [Diffs.loop, hk, List.map_cons, join_cons, contribution]
      rcases hd : s.Diff E with ⟨str, _ | err⟩
      · simp only [ih steps hrest, String.append_assoc]
      · simp only [ih steps hrest, String.empty_append]

/-- The loop of `Diffs` panics as soon as one of the keys leads to a nil pointer. -/
lemma Diffs.loop_nil {D F R : Type} (E : DiffDeps D F R) (o : ChangeOrder D)
    (keys : List String) (h : ∃ k ∈ keys, StepMap.index o.ChangeSteps k = none)
    (buf : String) : Diffs.loop E o keys buf = none := by
  induction keys generalizing buf with
  | nil => simp at h
  | cons k keys ih =>
    cases hk : StepMap.index o.ChangeSteps k with
    | none => simp [Diffs.loop, hk]
    | some s =>
      have hrest : ∃ k1 ∈ keys, StepMap.index o.ChangeSteps k1 = none := by
        obtain ⟨k1, hk1, hn⟩ := h
        rcases List.mem_cons.mp hk1 with rfl | hmem
        · rw [hk] at hn; exact Option.noConfusion hn
        · exact ⟨k1, hmem, hn⟩
      simp only [Diffs.loop, hk]
      rcases s.Diff E with ⟨str, _ | err⟩
      · exact ih hrest _
      · exact ih hrest _

/-- C3 (as amended). For every ChangeOrder whose step keys all store a step, the steps
stored under the keys of `StepKeys` being `steps` in that order, `Diffs()` returns the
concatenation, in that order, of the string returned by `Diff()` of each step; a step whose
`Diff()` returns an error contributes nothing and the steps after it are still rendered.
The output depends on the map only through its lookups: a ledger with the same step keys
whose map holds the same entries in another order gives the same output.  If a step key
leads to a nil pointer, `Diffs()` panics. -/
theorem Diffs_ledger_order {D F R : Type} (E : DiffDeps D F R) (o : ChangeOrder D) :
    (∀ steps : List (ChangeStep D), o.StepKeys.map o.Get = steps.map some →
      o.Diffs E = some (String.join (steps.map (contribution E)))
      ∧ ∀ cs ∈ steps, contribution E cs = if (cs.Diff E).2 = none then (cs.Diff E).1 else "")
    ∧ (∀ o2 : ChangeOrder D, o2.StepKeys = o.StepKeys →
        o2.ChangeSteps.entries.Perm o.ChangeSteps.entries → o2.Diffs E = o.Diffs E)
    ∧ ((∃ k ∈ o.StepKeys, o.Get k = none) → o.Diffs E = none) := by
  refine ⟨?_, ?_, ?_⟩
  · intro steps h
    constructor
    · have := Diffs.loop_concat E o o.StepKeys steps h ""
      simpa [ChangeOrder.Diffs] using this
    · intro cs _
      unfold contribution
      rcases cs.Diff E with ⟨str, _ | err⟩ <;> simp
  · intro o2 hkeys hperm
    have hidx : ∀ k, StepMap.index o2.ChangeSteps k = StepMap.index o.ChangeSteps k := by
      intro k
      simp only [StepMap.index, AList.perm_lookup hperm]
    have hloop : ∀ (keys : List String) (buf : String),
        Diffs.loop E o2 keys buf = Diffs.loop E o keys buf := by
      intro keys
      induction keys with
      | nil => intro buf; rfl
      | cons k keys ih =>
        intro buf
        simp only [Diffs.loop, hidx k, ih]
    simp only [ChangeOrder.Diffs, hkeys, hloop]
  · intro h
    exact Diffs.loop_nil E o o.StepKeys h ""

/-- The amended C3 at the ledger of YAML texts: the update of `jack` and the unchanged
`eric` are rendered in ledger order, and `pony`, whose `Diff()` fails, adds nothing. -/
theorem Diffs_ledger_order_witness :
    textOrder.StepKeys.map textOrder.Get =
      [(⟨"jack", .Update, "a: b", "a: c"⟩ : ChangeStep String),
        ⟨"pony", .Create, "", "\tbad"⟩, ⟨"eric", .UnChange, "x: 1", "x: 1"⟩].map some ∧
    textOrder.Diffs plainDeps =
      some ("ID: jack\nPlan: Update\nDiff: \n- a: b\n+ a: c\n" ++
        "ID: eric\nPlan: UnChange\nDiff: <EMPTY>\n") := by
  refine ⟨rfl, ?_⟩
  rw [((Diffs_ledger_order plainDeps textOrder).1
    [⟨"jack", .Update, "a: b", "a: c"⟩, ⟨"pony", .Create, "", "\tbad"⟩,
      ⟨"eric", .UnChange, "x: 1", "x: 1"⟩] rfl).1]
  rfl

/-- C3 fails as stated: on a ledger whose step key has no entry in the map, `Diffs()` does
not return a string; calling `Diff()` through the nil pointer panics.  The same happens
when nil is stored under the key. -/
theorem Diffs_nil_panics :
    (danglingOrder String).Diffs plainDeps = none ∧
    (nilStoredOrder String).Diffs plainDeps = none ∧
    ¬ ∃ out, (danglingOrder String).Diffs plainDeps = some out := by
  refine ⟨rfl, rfl, ?_⟩
  rintro ⟨out, h⟩
  have h2 : (none : Option String) = some out := h
  exact Option.noConfusion h2

/-! ## Validation of the options -/

/-- The loop of `Validate` appends, in input order, the file names whose extension is not
`.k`. -/
lemma Validate.collect_eq (files wrongFiles : List String) :
    Validate.collect files wrongFiles =
      wrongFiles ++ files.filter (fun f => decide (Ext f ≠ ".k")) := by
  induction files generalizing wrongFiles with
  | nil => simp [Validate.collect]
  | cons f files ih =>
    by_cases h : Ext f = ".k"
    · simp [Validate.collect, h, ih]
    · simp [Validate.collect, h, ih]

/-- C10. `CompileOptions.Validate` returns nil if and only if every file name has the
extension `.k`, so the empty list is accepted; otherwise it returns an error whose message
is the fixed text followed by the file names whose extension is not `.k`, in their input
order, printed as a slice.  `PreviewOptions.Validate` returns the result of
`CompileOptions.Validate` on the embedded options, and neither changes the options. -/
theorem Validate_suffix (o : CompileOptions) :
    (o.Validate.2 = none ↔ ∀ f ∈ o.Filenames, Ext f = ".k")
    ∧ (o.Filenames = [] → o.Validate.2 = none)
    ∧ (¬ (∀ f ∈ o.Filenames, Ext f = ".k") →
        o.Validate.2 = some ⟨"you can only compile files with suffix .k, these are wrong files: "
          ++ fmtStrings (o.Filenames.filter (fun f => decide (Ext f ≠ ".k")))⟩)
    ∧ o.Validate.1 = o
    ∧ (∀ (B : Type) (p : PreviewOptions B), p.CompileOptions = o →
        p.Validate.2 = o.Validate.2 ∧ p.Validate.1 = p) := by
  have hcollect : Validate.collect o.Filenames [] =
      o.Filenames.filter (fun f => decide (Ext f ≠ ".k")) := by
    rw [Validate.collect_eq]; rfl
  have hempty : o.Filenames.filter (fun f => decide (Ext f ≠ ".k")) = [] ↔
      ∀ f ∈ o.Filenames, Ext f = ".k" := by
    simp [List.filter_eq_nil_iff]
  have hval : o.Validate =
      if (o.Filenames.filter (fun f => decide (Ext f ≠ ".k"))).length ≠ 0 then
        (o, some ⟨"you can only compile files with suffix .k, these are wrong files: " ++
          fmtStrings (o.Filenames.filter (fun f => decide (Ext f ≠ ".k")))⟩)
      else (o, none) := by
    simp only [CompileOptions.Validate, hcollect]
  have hnil : o.Validate.2 = none ↔ ∀ f ∈ o.Filenames, Ext f = ".k" := by
    rw [← hempty, hval]
    by_cases hl : o.Filenames.filter (fun f => decide (Ext f ≠ ".k")) = []
    · rw [hl]
      simp
    · have hlen : (o.Filenames.filter (fun f => decide (Ext f ≠ ".k"))).length ≠ 0 :=
        fun h0 => hl (List.length_eq_zero.mp h0)
      rw [if_pos hlen]
      simp only [reduceCtorEq, false_iff]
      exact hl
  have hframe : o.Validate.1 = o := by
    rw [hval]
    split_ifs <;> rfl
  refine ⟨hnil, ?_, ?_, hframe, ?_⟩
  · intro hfiles
    rw [hnil, hfiles]
    intro f hf
    exact absurd hf (List.not_mem_nil f)
  · intro hbad
    have hl : o.Filenames.filter (fun f => decide (Ext f ≠ ".k")) ≠ [] :=
      fun h => hbad (hempty.mp h)
    have hlen : (o.Filenames.filter (fun f => decide (Ext f ≠ ".k"))).length ≠ 0 :=
      fun h0 => hl (List.length_eq_zero.mp h0)
    rw [hval, if_pos hlen]
  · intro B p hp
    subst hp
    constructor
    · rfl
    · unfold PreviewOptions.Validate
      simp only [hframe]

/-- C10 at a sample list of file names: two of the four do not have the extension `.k`. -/
theorem Validate_suffix_witness :
    ¬ (∀ f ∈ (optionsFor ["main.k", "a.txt", "b.k", "c"]).Filenames, Ext f = ".k") ∧
    (optionsFor ["main.k", "a.txt", "b.k", "c"]).Validate.2 =
      some ⟨"you can only compile files with suffix .k, these are wrong files: [a.txt c]"⟩ := by
  refine ⟨by decide, ?_⟩
  rw [(Validate_suffix (optionsFor ["main.k", "a.txt", "b.k", "c"])).2.2.1 (by decide)]
  decide

/-! ## Preview -/

/-- C6. `Preview` fails if and only if the status of the preview operation is an error.
For the result `(rsp, s)` the preview operation returns on the operation and the request
that `Preview` builds: if `status.IsErr(s)` then `Preview` returns a nil `Changes` and an
error whose message is `preview failed.` and a newline followed by `s.String()`; otherwise
it returns a nil error and a `Changes` whose `ChangeOrder` is `rsp.Order` and whose
`Project()` and `Stack()` are the project and the stack passed in. -/
theorem Preview_fails_iff_status_err {Rt St Sp Status D B : Type}
    (E : PreviewDeps Rt St Sp Status D) (o : PreviewOptions B) (runtime : Rt) (storage : St)
    (planResources : Option Sp) (project : Project) (stack : Stack) (cluster : String)
    (rsp : PreviewResponse D) (s : Status)
    (hcluster : E.ParseCluster planResources = some cluster)
    (hrun : E.enginePreview (previewOperation o runtime storage)
      (previewRequest o planResources project stack cluster) = (rsp, s)) :
    (E.IsErr s = true →
      Preview E (some o) runtime storage planResources (some project) (some stack) =
        some (none, some ⟨"preview failed.\n" ++ E.statusString s⟩))
    ∧ (E.IsErr s = false →
        ∃ ch : Changes D,
          Preview E (some o) runtime storage planResources (some project) (some stack) =
            some (some ch, none)
          ∧ ch.ChangeOrder = rsp.Order ∧ ch.Project = some project ∧ ch.Stack = some stack)
    ∧ (∃ r, Preview E (some o) runtime storage planResources (some project) (some stack) =
          some r ∧ (r.2 ≠ none ↔ E.IsErr s = true) ∧ (r.1 = none ↔ E.IsErr s = true)) := by
  cases herr : E.IsErr s with
  | true =>
    have hp : Preview E (some o) runtime storage planResources (some project) (some stack) =
        some (none, some ⟨"preview failed.\n" ++ E.statusString s⟩) := by
      simp [Preview, hcluster, hrun, herr]
    refine ⟨fun _ => hp, fun h => absurd h (by simp), ⟨_, hp, ?_, ?_⟩⟩ <;> simp
  | false =>
    have hp : Preview E (some o) runtime storage planResources (some project) (some stack) =
        some (some (NewChanges (some project) (some stack) rsp.Order), none) := by
      simp [Preview, hcluster, hrun, herr]
    refine ⟨fun h => absurd h (by simp), fun _ => ⟨_, hp, rfl, rfl, rfl⟩, ⟨_, hp, ?_, ?_⟩⟩ <;>
      simp

/-- C6 at the sample dependencies: without a spec the engine reports an error and `Preview`
fails with the prefixed message. -/
theorem Preview_fails_iff_status_err_witness :
    sampleDeps.ParseCluster none = some "cluster" ∧
    Preview sampleDeps (some emptyPreviewOptions) () () none (some ⟨"demo", "main"⟩)
        (some ⟨"dev"⟩) =
      some (none, some ⟨"preview failed.\nillegal manifest"⟩) :=
  ⟨rfl, (Preview_fails_iff_status_err sampleDeps emptyPreviewOptions () () none
    ⟨"demo", "main"⟩ ⟨"dev"⟩ "cluster" ⟨none⟩ (some "illegal manifest") rfl rfl).1 rfl⟩

/-! ## Reference resolution and the execution of a node -/

/-- A token that does not resolve yields its reference error, and a token that resolves
yields a value. -/
lemma resolveRef_failsAtFirst (index : List (String × Resource)) (token : String) :
    FailsAtFirst index [token] (resolveRef index token) := by
  unfold FailsAtFirst firstUnresolved
  cases h : resolveRef index token with
  | error e =>
    have hr : resolvable index token = false := by simp [resolvable, h]
    simp only [List.find?_cons, hr, Bool.not_false]
    unfold resolveRef at h
    split at h
    · exact h.symm
    · split at h
      · exact h.symm
      · exact Except.noConfusion h
  | ok v =>
    have hr : resolvable index token = true := by simp [resolvable, h]
    simp only [List.find?_cons, hr, Bool.not_true, List.find?_nil]
    exact ⟨v, rfl⟩

/-- A resolution without tokens that succeeds agrees with the empty list of tokens. -/
lemma failsAtFirst_ok {α : Type} (index : List (String × Resource)) (y : α) :
    FailsAtFirst index [] (.ok y : Except Status α) :=
  ⟨y, rfl⟩

/-- Two resolutions in sequence, the second run only when the first succeeds, agree with
the tokens of the first followed by the tokens of the second. -/
lemma failsAtFirst_seq {α β γ : Type} (index : List (String × Resource))
    (t1 t2 : List String) (r1 : Except Status α) (r2 : Except Status β) (f : α → β → γ)
    (res : Except Status γ)
    (h1 : FailsAtFirst index t1 r1) (h2 : FailsAtFirst index t2 r2)
    (he1 : ∀ e, r1 = .error e → res = .error e)
    (he2 : ∀ y e, r1 = .ok y → r2 = .error e → res = .error e)
    (hok : ∀ y ys, r1 = .ok y → r2 = .ok ys → res = .ok (f y ys)) :
    FailsAtFirst index (t1 ++ t2) res := by
  unfold FailsAtFirst firstUnresolved at *
  rw [List.find?_append]
  cases hf1 : List.find? (fun t => !resolvable index t) t1 with
  | some tok =>
    rw [hf1] at h1
    simp only [Option.or_some]
    exact he1 _ h1
  | none =>
    rw [hf1] at h1
    obtain ⟨y, hy⟩ := h1
    simp only [Option.none_or]
    cases hf2 : List.find? (fun t => !resolvable index t) t2 with
    | some tok =>
      rw [hf2] at h2
      exact he2 y _ hy h2
    | none =>
      rw [hf2] at h2
      obtain ⟨ys, hys⟩ := h2
      exact ⟨f y ys, hok y ys hy hys⟩

/-- A resolution followed by a wrapping of its result agrees with the same tokens. -/
lemma failsAtFirst_map {α β : Type} (index : List (String × Resource))
    (tokens : List String) (r : Except Status α) (f : α → β) (res : Except Status β)
    (h : FailsAtFirst index tokens r)
    (he : ∀ e, r = .error e → res = .error e)
    (hok : ∀ y, r = .ok y → res = .ok (f y)) :
    FailsAtFirst index tokens res := by
  unfold FailsAtFirst at *
  cases hf : firstUnresolved index tokens with
  | some tok =>
    rw [hf] at h
    exact he _ h
  | none =>
    rw [hf] at h
    obtain ⟨y, hy⟩ := h
    exact ⟨f y, hok y hy⟩

mutual
/-- The resolver on a value fails at the first placeholder, in depth-first order, that does
not resolve, and succeeds when all placeholders resolve. -/
theorem resolveValue_failsAtFirst (index : List (String × Resource)) :
    (v : Value) → FailsAtFirst index (placeholdersValue v) (resolveValue index v)
  | .null => by simpa [placeholdersValue, resolveValue] using failsAtFirst_ok index Value.null
  | .bool b => by simpa [placeholdersValue, resolveValue] using failsAtFirst_ok index (Value.bool b)
  | .number n => by
    simpa [placeholdersValue, resolveValue] using failsAtFirst_ok index (Value.number n)
  | .str s => by
    unfold placeholdersValue resolveValue
    cases h : refToken s with
    | some token => exact resolveRef_failsAtFirst index token
    | none => exact failsAtFirst_ok index (Value.str s)
  | .list xs => by
    unfold placeholdersValue resolveValue
    refine failsAtFirst_map index _ _ Value.list _ (resolveList_failsAtFirst index xs) ?_ ?_
    · intro e he; simp only [he]
    · intro y hy; simp only [hy]
  | .map kvs => by
    unfold placeholdersValue resolveValue
    refine failsAtFirst_map index _ _ Value.map _ (resolveFields_failsAtFirst index kvs) ?_ ?_
    · intro e he; simp only [he]
    · intro y hy; simp only [hy]
/-- The resolver on a list of values fails at the first placeholder that does not
resolve. -/
theorem resolveList_failsAtFirst (index : List (String × Resource)) :
    (xs : List Value) → FailsAtFirst index (placeholdersList xs) (resolveList index xs)
  | [] => by simpa [placeholdersList, resolveList] using failsAtFirst_ok index ([] : List Value)
  | x :: xs => by
    unfold placeholdersList resolveList
    refine failsAtFirst_seq index _ _ _ _ (fun y ys => y :: ys) _
      (resolveValue_failsAtFirst index x) (resolveList_failsAtFirst index xs) ?_ ?_ ?_
    · intro e he; simp only [he]
    · intro y e hy he; simp only [hy, he]
    · intro y ys hy hys; simp only [hy, hys]
/-- The resolver on the fields of a map fails at the first placeholder that does not
resolve. -/
theorem resolveFields_failsAtFirst (index : List (String × Resource)) :
    (kvs : List (String × Value)) →
      FailsAtFirst index (placeholdersFields kvs) (resolveFields index kvs)
  | [] => by
    simpa [placeholdersFields, resolveFields] using
      failsAtFirst_ok index ([] : List (String × Value))
  | (k, x) :: kvs => by
    unfold placeholdersFields resolveFields
    refine failsAtFirst_seq index _ _ _ _ (fun y kvs1 => (k, y) :: kvs1) _
      (resolveValue_failsAtFirst index x) (resolveFields_failsAtFirst index kvs) ?_ ?_ ?_
    · intro e he; simp only [he]
    · intro y e hy he; simp only [hy, he]
    · intro y ys hy hys; simp only [hy, hys]
end

/-- A token whose path is missing in the resource it names does not resolve. -/
lemma not_resolvable_of_pathMissing (index : List (String × Resource)) (token : String)
    (h : pathMissing index token) : resolvable index token = false := by
  obtain ⟨r, hr, hf⟩ := h
  simp [resolvable, resolveRef, hr, hf]

/-- The first token that does not resolve, in a list split at a token that does not
resolve and before which every token resolves, is that token. -/
lemma firstUnresolved_split (index : List (String × Resource)) (pre post : List String)
    (token : String) (hpre : ∀ t ∈ pre, resolvable index t = true)
    (htok : resolvable index token = false) :
    firstUnresolved index (pre ++ token :: post) = some token := by
  unfold firstUnresolved
  rw [List.find?_append]
  have hnone : List.find? (fun t => !resolvable index t) pre = none := by
    rw [List.find?_eq_none]
    intro t ht
    simp [hpre t ht]
  rw [hnone, Option.none_or, List.find?_cons]
  simp [htok]

/-- The resolution of the planned resource fails with the error of the first placeholder
that does not resolve. -/
lemma Engine.resolvePlanned_error (index : List (String × Resource)) (r : Resource)
    (token : String) (h : firstUnresolved index (placeholdersFields r.Attributes) = some token) :
    Engine.resolvePlanned index (some r) = .error (refError token) := by
  have hf := resolveFields_failsAtFirst index r.Attributes
  unfold FailsAtFirst at hf
  rw [h] at hf
  simp [Engine.resolvePlanned, hf]

/-- The resolution of the planned resource succeeds when all its placeholders resolve. -/
lemma Engine.resolvePlanned_ok (index : List (String × Resource)) (planned : Option Resource)
    (h : ∀ r, planned = some r →
      ∀ t ∈ placeholdersFields r.Attributes, resolvable index t = true) :
    ∃ p, Engine.resolvePlanned index planned = .ok p := by
  cases planned with
  | none => exact ⟨none, rfl⟩
  | some r =>
    have hf := resolveFields_failsAtFirst index r.Attributes
    unfold FailsAtFirst at hf
    have hnone : firstUnresolved index (placeholdersFields r.Attributes) = none := by
      unfold firstUnresolved
      rw [List.find?_eq_none]
      intro t ht
      simp [h r rfl t ht]
    rw [hnone] at hf
    obtain ⟨attrs, hattrs⟩ := hf
    exact ⟨some { r with Attributes := attrs }, by simp [Engine.resolvePlanned, hattrs]⟩

/-- When the resolution of the planned resource fails, `Execute` returns that error and
leaves the operation as it is. -/
lemma Engine.Execute_of_resolve_error (rn : Engine.ResourceNode) (op : Engine.Operation)
    (s : Status) (h : Engine.resolvePlanned op.CtxResourceIndex rn.planned = .error s) :
    Engine.Execute rn op = (some s, op) := by
  simp [Engine.Execute, h]

/-- C4 (as amended). Resolve-or-fail: for every resource node whose planned attributes
contain a placeholder whose path does not exist in the attributes of the resource it
names in the in-run resource index, `Execute` does not return success: it returns exactly
the error status of kind `IllegalManifest` with the message
`can't find specified value in resource:<id> by ref:<token>` of the first placeholder that
does not resolve, in the order of the depth-first walk (the elements of a list in index
order, the fields of a map in the order in which the tree lists them), and leaves the
operation as it is.  So it returns exactly the error of the placeholder at hand when every
placeholder met before it resolves, and, whatever the order of the walk, when no
placeholder with another token fails to resolve. -/
theorem Execute_unresolved_reference (rn : Engine.ResourceNode) (op : Engine.Operation)
    (r : Resource) (hplanned : rn.planned = some r) :
    (∀ first, firstUnresolved op.CtxResourceIndex (placeholdersFields r.Attributes) = some first ↔
      ∃ pre post, placeholdersFields r.Attributes = pre ++ first :: post ∧
        (∀ t ∈ pre, resolvable op.CtxResourceIndex t = true) ∧
        resolvable op.CtxResourceIndex first = false)
    ∧ (∀ first,
        firstUnresolved op.CtxResourceIndex (placeholdersFields r.Attributes) = some first →
        Engine.Execute rn op =
          (some (NewErrorStatusWithMsg StatusKind.IllegalManifest
            ("can't find specified value in resource:" ++ refTarget first ++ " by ref:" ++
              first)), op))
    ∧ (∀ pre token post, placeholdersFields r.Attributes = pre ++ token :: post →
        (∀ t ∈ pre, resolvable op.CtxResourceIndex t = true) →
        pathMissing op.CtxResourceIndex token →
        Engine.Execute rn op =
          (some (NewErrorStatusWithMsg StatusKind.IllegalManifest
            ("can't find specified value in resource:" ++ refTarget token ++ " by ref:" ++
              token)), op))
    ∧ (∀ token ∈ placeholdersFields r.Attributes, pathMissing op.CtxResourceIndex token →
        (Engine.Execute rn op).1 ≠ none ∧
        ∃ first,
          firstUnresolved op.CtxResourceIndex (placeholdersFields r.Attributes) = some first ∧
          Engine.Execute rn op =
            (some (NewErrorStatusWithMsg StatusKind.IllegalManifest
              ("can't find specified value in resource:" ++ refTarget first ++ " by ref:" ++
                first)), op))
    ∧ (∀ token ∈ placeholdersFields r.Attributes, pathMissing op.CtxResourceIndex token →
        (∀ t ∈ placeholdersFields r.Attributes,
          resolvable op.CtxResourceIndex t = false → t = token) →
        Engine.Execute rn op =
          (some (NewErrorStatusWithMsg StatusKind.IllegalManifest
            ("can't find specified value in resource:" ++ refTarget token ++ " by ref:" ++
              token)), op)) := by
  have hexec : ∀ first,
      firstUnresolved op.CtxResourceIndex (placeholdersFields r.Attributes) = some first →
      Engine.Execute rn op = (some (refError first), op) := by
    intro first hfirst
    have herr := Engine.resolvePlanned_error op.CtxResourceIndex r first hfirst
    rw [← hplanned] at herr
    exact Engine.Execute_of_resolve_error rn op _ herr
  have hsome : ∀ token ∈ placeholdersFields r.Attributes,
      pathMissing op.CtxResourceIndex token →
      ∃ first, firstUnresolved op.CtxResourceIndex (placeholdersFields r.Attributes) =
        some first := by
    intro token hmem hmiss
    have hbad := not_resolvable_of_pathMissing _ _ hmiss
    cases hfirst : firstUnresolved op.CtxResourceIndex (placeholdersFields r.Attributes) with
    | none =>
      unfold firstUnresolved at hfirst
      rw [List.find?_eq_none] at hfirst
      have := hfirst token hmem
      simp [hbad] at this
    | some first => exact ⟨first, rfl⟩
  refine ⟨?_, hexec, ?_, ?_, ?_⟩
  · intro first
    unfold firstUnresolved
    rw [List.find?_eq_some]
    constructor
    · rintro ⟨hbad, pre, post, hsplit, hpre⟩
      exact ⟨pre, post, hsplit, fun t ht => by simpa using hpre t ht, by simpa using hbad⟩
    · rintro ⟨pre, post, hsplit, hpre, hbad⟩
      exact ⟨by simp [hbad], pre, post, hsplit, fun t ht => by simp [hpre t ht]⟩
  · intro pre token post hsplit hpre hmiss
    have hfirst := firstUnresolved_split op.CtxResourceIndex pre post token hpre
      (not_resolvable_of_pathMissing _ _ hmiss)
    rw [← hsplit] at hfirst
    exact hexec token hfirst
  · intro token hmem hmiss
    obtain ⟨first, hfirst⟩ := hsome token hmem hmiss
    have hex := hexec first hfirst
    exact ⟨by rw [hex]; simp, first, hfirst, hex⟩
  · intro token hmem hmiss honly
    obtain ⟨first, hfirst⟩ := hsome token hmem hmiss
    have hex := hexec first hfirst
    have hmem1 : first ∈ placeholdersFields r.Attributes := by
      unfold firstUnresolved at hfirst
      exact List.mem_of_find?_eq_some hfirst
    have hbad1 : resolvable op.CtxResourceIndex first = false := by
      unfold firstUnresolved at hfirst
      simpa using List.find?_some hfirst
    rw [← honly first hmem1 hbad1]
    exact hex

/-- The amended C4 at the test and at a node with several placeholders.  The node with state
`eric`, whose attribute `a` refers to `jack.notExist`, against the index in which `jack`
has only `a.b`, returns the error of the test.  The node whose placeholders are `jack.a.b`,
which resolves, and then `jack.x` and `jack.y`, which do not, returns the error of `jack.x`.
The node whose placeholders are `ghost.a`, whose target is absent, and then `jack.y`
returns the error of `ghost.a`. -/
theorem Execute_unresolved_reference_witness :
    pathMissing Engine.testOperation.CtxResourceIndex "jack.notExist" ∧
    Engine.Execute (Engine.testNode .Update Engine.illegalResourceState) Engine.testOperation =
      (some (NewErrorStatusWithMsg StatusKind.IllegalManifest
        "can't find specified value in resource:jack by ref:jack.notExist"),
       Engine.testOperation) ∧
    placeholdersFields Engine.orderedRefs.Attributes = ["jack.a.b"] ++ "jack.x" :: ["jack.y"] ∧
    resolvable Engine.testOperation.CtxResourceIndex "jack.a.b" = true ∧
    pathMissing Engine.testOperation.CtxResourceIndex "jack.x" ∧
    Engine.Execute (Engine.testNode .Update Engine.orderedRefs) Engine.testOperation =
      (some (NewErrorStatusWithMsg StatusKind.IllegalManifest
        "can't find specified value in resource:jack by ref:jack.x"),
       Engine.testOperation) ∧
    firstUnresolved Engine.testOperation.CtxResourceIndex
      (placeholdersFields Engine.ghostFirst.Attributes) = some "ghost.a" ∧
    Engine.Execute (Engine.testNode .Update Engine.ghostFirst) Engine.testOperation =
      (some (NewErrorStatusWithMsg StatusKind.IllegalManifest
        "can't find specified value in resource:ghost by ref:ghost.a"),
       Engine.testOperation) :=
  ⟨⟨Engine.Jack, rfl, rfl⟩,
    (Execute_unresolved_reference (Engine.testNode .Update Engine.illegalResourceState)
      Engine.testOperation Engine.illegalResourceState rfl).2.2.1 [] "jack.notExist" [] rfl
      (fun t ht => absurd ht (List.not_mem_nil t)) ⟨Engine.Jack, rfl, rfl⟩,
    rfl, rfl, ⟨Engine.Jack, rfl, rfl⟩,
    (Execute_unresolved_reference (Engine.testNode .Update Engine.orderedRefs)
      Engine.testOperation Engine.orderedRefs rfl).2.2.1 ["jack.a.b"] "jack.x" ["jack.y"] rfl
      (by decide) ⟨Engine.Jack, rfl, rfl⟩,
    rfl,
    (Execute_unresolved_reference (Engine.testNode .Update Engine.ghostFirst)
      Engine.testOperation Engine.ghostFirst rfl).2.1 "ghost.a" rfl⟩

/-- C4 fails as stated: a node whose planned attributes contain the placeholders `jack.x`
and `jack.y`, neither of which exists in `jack`, returns the error of `jack.x`, not the
error the claim demands for the placeholder `jack.y`. -/
theorem Execute_reports_first_reference :
    "jack.y" ∈ placeholdersFields Engine.twoMissing.Attributes ∧
    pathMissing Engine.testOperation.CtxResourceIndex "jack.y" ∧
    (Engine.Execute (Engine.testNode .Update Engine.twoMissing) Engine.testOperation).1 =
      some (NewErrorStatusWithMsg StatusKind.IllegalManifest
        "can't find specified value in resource:jack by ref:jack.x") ∧
    (Engine.Execute (Engine.testNode .Update Engine.twoMissing) Engine.testOperation).1 ≠
      some (NewErrorStatusWithMsg StatusKind.IllegalManifest
        "can't find specified value in resource:jack by ref:jack.y") := by
  refine ⟨by decide, ⟨Engine.Jack, rfl, rfl⟩, rfl, ?_⟩
  have h : (Engine.Execute (Engine.testNode .Update Engine.twoMissing)
      Engine.testOperation).1 =
      some (NewErrorStatusWithMsg StatusKind.IllegalManifest
        "can't find specified value in resource:jack by ref:jack.x") := rfl
  rw [h]
  decide

/-- A node that was read and has a live resource is classified as an update or as
unchanged. -/
lemma Engine.classify_update (op : Engine.Operation) (live : Resource)
    (planned : Option Resource) :
    Engine.classify op ActionType.Update (some live) planned = ActionType.Update ∨
    Engine.classify op ActionType.Update (some live) planned = ActionType.UnChange := by
  cases planned with
  | none => left; rfl
  | some p =>
    by_cases h : op.sameUnderMask op.IgnoreFields live p = true
    · right; simp [Engine.classify, h]
    · left; simp [Engine.classify, h]

/-- C7. In apply mode, for every resource node with action Update or Delete whose
placeholders all resolve against the in-run resource index, `planned` being the planned
resource with its placeholders replaced, `Execute` returns a nil status whenever the calls
it makes succeed.  For Delete these are `Runtime.Delete` of the prior resource and
`StateStorage.Apply` of the next snapshot.  For Update they are `Runtime.Read` of the prior
resource, then `Runtime.Apply(prior, planned)` when the live resource differs from the
planned one, no runtime call when it does not, and `Runtime.Apply(nil, planned)` when the
resource is not found, and then `StateStorage.Apply` of the next snapshot.  No other call
is required to succeed. -/
theorem Execute_update_delete_succeeds (rn : Engine.ResourceNode) (op : Engine.Operation)
    (hmode : op.OperationType = OperationType.Apply)
    (hresolve : ∀ r, rn.planned = some r →
      ∀ t ∈ placeholdersFields r.Attributes, resolvable op.CtxResourceIndex t = true) :
    ∃ planned, Engine.resolvePlanned op.CtxResourceIndex rn.planned = .ok planned
      ∧ (rn.Action = ActionType.Delete →
          op.Runtime.Delete rn.prior = none →
          op.StateStorage.Apply
            { Serial := op.resultState.Serial + 1,
              Resources := Engine.withoutID rn.ID op.resultState.Resources } = none →
          (Engine.Execute rn op).1 = none)
      ∧ (rn.Action = ActionType.Update → ∀ live applied,
          op.Runtime.Read rn.prior = (some live, none) →
          Engine.classify op ActionType.Update (some live) planned = ActionType.Update →
          op.Runtime.Apply rn.prior planned = (applied, none) →
          op.StateStorage.Apply
            { Serial := op.resultState.Serial + 1,
              Resources := Engine.withLive rn.ID applied op.resultState.Resources } = none →
          (Engine.Execute rn op).1 = none)
      ∧ (rn.Action = ActionType.Update → ∀ live,
          op.Runtime.Read rn.prior = (some live, none) →
          Engine.classify op ActionType.Update (some live) planned = ActionType.UnChange →
          op.StateStorage.Apply
            { Serial := op.resultState.Serial + 1,
              Resources := op.resultState.Resources } = none →
          (Engine.Execute rn op).1 = none)
      ∧ (rn.Action = ActionType.Update → ∀ applied,
          op.Runtime.Read rn.prior = (none, none) →
          op.Runtime.Apply none planned = (applied, none) →
          op.StateStorage.Apply
            { Serial := op.resultState.Serial + 1,
              Resources := Engine.withLive rn.ID applied op.resultState.Resources } = none →
          (Engine.Execute rn op).1 = none)
      ∧ (∀ live, Engine.classify op ActionType.Update (some live) planned = ActionType.Update ∨
          Engine.classify op ActionType.Update (some live) planned = ActionType.UnChange) := by
  obtain ⟨planned, hp⟩ := Engine.resolvePlanned_ok op.CtxResourceIndex rn.planned hresolve
  refine ⟨planned, hp, ?_, ?_, ?_, ?_, fun live => Engine.classify_update op live planned⟩
  · intro hact hdel hstore
    simp [Engine.Execute, hp, Engine.readLive, hact, Engine.classify, hmode,
      Engine.applyAction, hdel, hstore]
  · intro hact live applied hread hcls happly hstore
    simp [Engine.Execute, hp, Engine.readLive, hact, hread, hcls, hmode,
      Engine.applyAction, happly, hstore]
  · intro hact live hread hcls hstore
    simp [Engine.Execute, hp, Engine.readLive, hact, hread, hcls, hmode,
      Engine.applyAction, hstore]
  · intro hact applied hread happly hstore
    simp [Engine.Execute, hp, Engine.readLive, hact, hread, Engine.classify, hmode,
      Engine.applyAction, happly, hstore]

/-- C7 at the test: the node with state `eric`, whose attribute `a` refers to `jack.a.b`,
against the index in which `jack` has `a.b`, with the runtime and the state storage of the
test.  With action Update the live resource differs from the planned one, so
`Runtime.Apply` is the call made, and `Execute` returns nil; it fails when `Runtime.Apply`
fails.  With action Delete `Execute` returns nil, also when `Runtime.Apply` would fail. -/
theorem Execute_update_delete_succeeds_witness :
    (∀ t ∈ placeholdersFields Engine.newResourceState.Attributes,
      resolvable Engine.testOperation.CtxResourceIndex t = true) ∧
    Engine.classify Engine.testOperation ActionType.Update (some Engine.Eric)
      (some Engine.resolvedState) = ActionType.Update ∧
    (Engine.Execute (Engine.testNode .Update Engine.newResourceState) Engine.testOperation).1 =
      none ∧
    (Engine.Execute (Engine.testNode .Update Engine.newResourceState)
      { Engine.testOperation with Runtime := Engine.failingApplyRuntime }).1 =
      some (NewErrorStatusWithMsg StatusKind.RuntimeError "apply failed") ∧
    (Engine.Execute (Engine.testNode .Delete Engine.newResourceState) Engine.testOperation).1 =
      none ∧
    (Engine.Execute (Engine.testNode .Delete Engine.newResourceState)
      { Engine.testOperation with Runtime := Engine.failingApplyRuntime }).1 = none := by
  have hres : ∀ t ∈ placeholdersFields Engine.newResourceState.Attributes,
      resolvable Engine.testOperation.CtxResourceIndex t = true := by decide
  refine ⟨hres, rfl, ?_, rfl, ?_, ?_⟩
  · obtain ⟨planned, hp, -, hU, -, -, -⟩ :=
      Execute_update_delete_succeeds (Engine.testNode .Update Engine.newResourceState)
        Engine.testOperation rfl (fun r hr => by cases hr; exact hres)
    have hpl : planned = some Engine.resolvedState :=
      (Except.ok.inj ((show Engine.resolvePlanned Engine.testOperation.CtxResourceIndex
        (Engine.testNode .Update Engine.newResourceState).planned =
          .ok (some Engine.resolvedState) from rfl).symm.trans hp)).symm
    subst hpl
    exact hU rfl Engine.Eric (some Engine.resolvedState) rfl rfl rfl rfl
  · obtain ⟨planned, -, hD, -, -, -, -⟩ :=
      Execute_update_delete_succeeds (Engine.testNode .Delete Engine.newResourceState)
        Engine.testOperation rfl (fun r hr => by cases hr; exact hres)
    exact hD rfl rfl rfl
  · obtain ⟨planned, -, hD, -, -, -, -⟩ :=
      Execute_update_delete_succeeds (Engine.testNode .Delete Engine.newResourceState)
        { Engine.testOperation with Runtime := Engine.failingApplyRuntime } rfl
        (fun r hr => by cases hr; exact hres)
    exact hD rfl rfl rfl

/-! ## PreSet -/

end Kusion
